import Mathlib

/-!
# Verification of the `personal-python-scripts` repository

Shallow embedding of the two scripts:

* `azure-ssml-to-wav/azure_ssml_to_wav.py` — SSML prolog normalization,
  `<speak>` body extraction, `<voice>`-block splitting, synthesis retry
  loop, and WAV concatenation.
* `azure-speech-to-text/azure_speech_to_text.py` — SRT/WebVTT timestamp
  rendering and subtitle file generation, and credential configuration.

Strings are modelled as `List Char`.  The Python regular expressions used by
the scripts are all deterministic scans (greedy character classes followed by
a mandatory literal, or non-greedy scans to the first occurrence of a fixed
terminator), so each one is embedded as an explicit recursive matcher whose
behaviour coincides with the regex engine on the pattern in question.
`\s` is modelled on its ASCII subset (the six ASCII whitespace characters),
and case-insensitivity (`re.I`) via ASCII `Char.toLower`, matching the
regex semantics on all ASCII input.

Python `float` time values are modelled as exact rationals `ℚ`; `//`, `%`,
`int(...)` and `round(...)` are given their exact real-number semantics
(`round` is banker's rounding, as in Python 3).
-/

deriving instance DecidableEq for Except

attribute [local semireducible] Rat.mul Rat.inv Rat.add Rat.sub

/-- The six ASCII characters matched by the regex class `\s`. -/
def isSpaceChar (c : Char) : Bool :=
  c = ' ' || c = '\t' || c = '\n' || c = '\r' || c = '\x0b' || c = '\x0c'

/-- ASCII word characters, the class `\w` used by the `\b` assertion. -/
def isWordChar (c : Char) : Bool :=
  c.isAlpha || c.isDigit || c = '_'

/-- `beginsWith needle s` : does `s` start with `needle`? -/
def beginsWith : List Char → List Char → Bool
  | [], _ => true
  | _ :: _, [] => false
  | a :: as, b :: bs => a = b && beginsWith as bs

/-- Python's substring test `needle in s` (contiguous substring). -/
def containsSeq (needle : List Char) : List Char → Bool
  | [] => beginsWith needle []
  | c :: r => beginsWith needle (c :: r) || containsSeq needle r

/-- Case-insensitive literal match: on success returns the rest of the input
after the literal.  Models a case-sensitive ASCII literal under `re.I`. -/
def matchCI : List Char → List Char → Option (List Char)
  | [], s => some s
  | _ :: _, [] => none
  | p :: ps, c :: cs => if p.toLower = c.toLower then matchCI ps cs else none

theorem matchCI_drop : ∀ (p s r : List Char), matchCI p s = some r →
    r = s.drop p.length ∧ p.length ≤ s.length := by
  intro p
  induction p with
  | nil => intro s r h; simp [matchCI] at h; simp [h]
  | cons a as ih =>
    intro s r h
    cases s with
    | nil => simp [matchCI] at h
    | cons c cs =>
      simp only [matchCI] at h
      split at h
      · obtain ⟨h1, h2⟩ := ih cs r h
        constructor
        · simpa using h1
        · simpa using h2
      · exact absurd h (by simp)

/-- Matcher for the open-tag regex `<\s*NAME\b[^>]*>` (with `re.I`), applied
at the start of the input.  On success returns the matched text and the rest.
The regex is deterministic: `\s*` is a maximal whitespace run (backtracking
cannot help since `NAME` starts with a non-space letter), `[^>]*>` always ends
at the first following `>`. -/
def matchOpenTag (name : List Char) (s : List Char) : Option (List Char × List Char) :=
  match s with
  | '<' :: r =>
    let ws := r.takeWhile isSpaceChar
    let r1 := r.dropWhile isSpaceChar
    match matchCI name r1 with
    | none => none
    | some r2 =>
      if (match r2 with | [] => true | c :: _ => !isWordChar c) then
        let attrs := r2.takeWhile (fun c => !(c = '>'))
        match r2.dropWhile (fun c => !(c = '>')) with
        | '>' :: r3 => some ('<' :: (ws ++ r1.take name.length ++ attrs ++ ['>']), r3)
        | _ => none
      else none
  | _ => none

/-- Matcher for the close-tag regexes, applied at the start of the input.
`wsAfterLt = true` models `<\s*/\s*NAME\s*>` (the `</voice>` pattern);
`wsAfterLt = false` models `</\s*NAME\s*>` (the `</speak>` pattern). -/
def matchCloseTag (wsAfterLt : Bool) (name : List Char) (s : List Char) :
    Option (List Char × List Char) :=
  match s with
  | '<' :: r0 =>
    let ws0 := if wsAfterLt then r0.takeWhile isSpaceChar else []
    let r1 := if wsAfterLt then r0.dropWhile isSpaceChar else r0
    match r1 with
    | '/' :: r2 =>
      let ws1 := r2.takeWhile isSpaceChar
      let r3 := r2.dropWhile isSpaceChar
      match matchCI name r3 with
      | some r4 =>
        let ws2 := r4.takeWhile isSpaceChar
        let r5 := r4.dropWhile isSpaceChar
        match r5 with
        | '>' :: r6 =>
          some ('<' :: (ws0 ++ '/' :: (ws1 ++ r3.take name.length ++ ws2 ++ ['>'])), r6)
        | _ => none
      | none => none
    | _ => none
  | _ => none

/-- `re.search`: scan left to right, return the first position where the
given start-anchored matcher succeeds.  Returns (skipped prefix, match, rest). -/
def searchFrom (f : List Char → Option (List Char × List Char)) :
    List Char → Option (List Char × List Char × List Char)
  | [] =>
    match f [] with
    | some (m, rest) => some ([], m, rest)
    | none => none
  | c :: r =>
    match f (c :: r) with
    | some (m, rest) => some ([], m, rest)
    | none => (searchFrom f r).map fun pr => (c :: pr.1, pr.2.1, pr.2.2)

theorem matchOpenTag_split {name : List Char} {s m r : List Char}
    (h : matchOpenTag name s = some (m, r)) : s = m ++ r ∧ 1 ≤ m.length := by
  unfold matchOpenTag at h
  split at h
  case h_2 => exact absurd h (by simp)
  case h_1 r0 =>
    simp only at h
    split at h
    · exact absurd h (by simp)
    case h_2 r2 hm =>
      split at h
      · split at h
        case h_1 r3 hdw =>
          obtain ⟨hmm, hrr⟩ := Prod.mk.injEq .. ▸ (Option.some.injEq .. ▸ h)
          subst hmm
          obtain ⟨hm1, hm2⟩ := matchCI_drop _ _ _ hm
          constructor
          · have hr0 : r0 = r0.takeWhile isSpaceChar ++ r0.dropWhile isSpaceChar :=
              (List.takeWhile_append_dropWhile _ _).symm
            have hr1 : r0.dropWhile isSpaceChar =
                (r0.dropWhile isSpaceChar).take name.length ++ r2 := by
              conv_lhs => rw [← List.take_append_drop name.length (r0.dropWhile isSpaceChar)]
              rw [← hm1]
            have hr2 : r2 = r2.takeWhile (fun c => !(c = '>')) ++ ('>' :: r) := by
              conv_lhs => rw [← List.takeWhile_append_dropWhile (fun c => !(c = '>')) r2]
              rw [hdw, hrr]
            conv_lhs => rw [hr0, hr1, hr2]
            simp
          · simp
        case h_2 => exact absurd h (by simp)
      · exact absurd h (by simp)

theorem matchCloseTag_split {b : Bool} {name s m r : List Char}
    (h : matchCloseTag b name s = some (m, r)) : s = m ++ r ∧ 1 ≤ m.length := by
  unfold matchCloseTag at h
  split at h
  case h_2 => exact absurd h (by simp)
  case h_1 r0 =>
    simp only at h
    split at h
    case h_2 => exact absurd h (by simp)
    case h_1 r2 hr1 =>
      split at h
      case h_2 => exact absurd h (by simp)
      case h_1 r4 hm =>
        split at h
        case h_2 => exact absurd h (by simp)
        case h_1 r6 hr5 =>
          obtain ⟨hmm, hrr⟩ := Prod.mk.injEq .. ▸ (Option.some.injEq .. ▸ h)
          subst hmm
          obtain ⟨hm1, hm2⟩ := matchCI_drop _ _ _ hm
          constructor
          · have hr0 : r0 = (if b then r0.takeWhile isSpaceChar else []) ++
                (if b then r0.dropWhile isSpaceChar else r0) := by
              cases b <;> simp
            have hr2 : r2 = r2.takeWhile isSpaceChar ++ r2.dropWhile isSpaceChar :=
              (List.takeWhile_append_dropWhile _ _).symm
            have hr3 : r2.dropWhile isSpaceChar =
                (r2.dropWhile isSpaceChar).take name.length ++ r4 := by
              conv_lhs => rw [← List.take_append_drop name.length (r2.dropWhile isSpaceChar)]
              rw [← hm1]
            have hr4 : r4 = r4.takeWhile isSpaceChar ++ r4.dropWhile isSpaceChar :=
              (List.takeWhile_append_dropWhile _ _).symm
            have hr6 : r4.dropWhile isSpaceChar = '>' :: r := by rw [hr5, hrr]
            conv_lhs => rw [hr0, hr1, hr2, hr3, hr4, hr6]
            simp
          · simp

theorem searchFrom_split {f : List Char → Option (List Char × List Char)}
    (hf : ∀ s m r, f s = some (m, r) → s = m ++ r ∧ 1 ≤ m.length) :
    ∀ {s p m r : List Char}, searchFrom f s = some (p, m, r) →
      s = p ++ m ++ r ∧ 1 ≤ m.length := by
  intro s
  induction s with
  | nil =>
    intro p m r h
    unfold searchFrom at h
    split at h
    case h_1 m0 r0 hm =>
      cases h
      obtain ⟨ha, hb⟩ := hf _ _ _ hm
      exact ⟨by simpa using ha, hb⟩
    case h_2 => exact absurd h (by simp)
  | cons c cs ih =>
    intro p m r h
    unfold searchFrom at h
    split at h
    case h_1 m0 r0 hm =>
      cases h
      obtain ⟨ha, hb⟩ := hf _ _ _ hm
      exact ⟨by simpa using ha, hb⟩
    case h_2 =>
      cases hs : searchFrom f cs with
      | none => rw [hs] at h; simp at h
      | some pr =>
        obtain ⟨p1, m1, r1⟩ := pr
        rw [hs] at h
        simp only [Option.map] at h
        cases h
        obtain ⟨ha, hb⟩ := ih hs
        exact ⟨by simp [ha], hb⟩

/-- Scan for the end of an XML declaration: the regex fragment `[^>]*\?>`.
The greedy class `[^>]*` cannot cross a `>`, so the regex matches exactly
when the first `>` of the input is immediately preceded by `?`; the
returned rest is what follows that `>`. -/
def declEnd : List Char → Option (List Char)
  | [] => none
  | c :: r =>
    if c = '>' then none
    else if c = '?' then
      match r with
      | '>' :: r2 => some r2
      | _ => declEnd r
    else declEnd r

/-- Scan for the end of a comment: the regex fragment `.*?-->` (with `re.S`);
non-greedy, so the match ends at the first occurrence of `-->`. -/
def commentEnd : List Char → Option (List Char)
  | [] => none
  | c :: r =>
    if beginsWith ['-', '-', '>'] (c :: r) then some ((c :: r).drop 3)
    else commentEnd r

/-- `normalize_prolog` step 1: strip a leading byte-order mark. -/
def stripBOM (s : List Char) : List Char :=
  match s with
  | c :: rest => if c = '﻿' then rest else s
  | [] => []

/-- `normalize_prolog` step 2:
`re.sub(r'^\\s*<\\?xml[^>]*\\?>\\s*', '', ssml_text, flags=re.S)`.
Anchored at the start, so at most one removal; on no match the text is
returned unchanged. -/
def stripXmlDecl (s : List Char) : List Char :=
  if beginsWith ['<', '?', 'x', 'm', 'l'] (s.dropWhile isSpaceChar) then
    match declEnd ((s.dropWhile isSpaceChar).drop 5) with
    | some rest => rest.dropWhile isSpaceChar
    | none => s
  else s

/-- `normalize_prolog` step 3:
`re.sub(r'^\\s*<!--.*?-->\\s*', '', ssml_text, flags=re.S)`. -/
def stripComment (s : List Char) : List Char :=
  if beginsWith ['<', '!', '-', '-'] (s.dropWhile isSpaceChar) then
    match commentEnd ((s.dropWhile isSpaceChar).drop 4) with
    | some rest => rest.dropWhile isSpaceChar
    | none => s
  else s

/-- `normalize_prolog` from `azure_ssml_to_wav.py`: strip BOM, then a leading
XML declaration, then a leading comment. -/
def normalize_prolog (ssml_text : List Char) : List Char :=
  stripComment (stripXmlDecl (stripBOM ssml_text))

def speakName : List Char := ['s', 'p', 'e', 'a', 'k']

def voiceName : List Char := ['v', 'o', 'i', 'c', 'e']

/-- The `ValueError` message raised by `extract_speak_body`. -/
def malformedMsg : List Char :=
  ("Cannot find <speak> ... </speak> root. " ++
   "Please ensure the SSML has a single <speak> element.").data

/-- The part of `extract_speak_body` after `normalize_prolog`:
`re.search(r'<\\s*speak\\b[^>]*>', txt, re.I|re.S)` and
`re.search(r'</\\s*speak\\s*>', txt, re.I|re.S)` (both searched from the
start of `txt`), then `inner = txt[m_open.end():m_close.start()]`
(an empty slice when the close match starts before the open match ends,
as in Python). -/
def extractBody (txt : List Char) :
    Except (List Char) (List Char × List Char × List Char) :=
  match searchFrom (matchOpenTag speakName) txt with
  | none => .error malformedMsg
  | some (p1, otag, _) =>
    match searchFrom (matchCloseTag false speakName) txt with
    | none => .error malformedMsg
    | some (p2, ctag, _) =>
      let openEnd := p1.length + otag.length
      let inner := (txt.drop openEnd).take (p2.length - openEnd)
      .ok (otag, inner, ctag)

/-- `extract_speak_body` from `azure_ssml_to_wav.py`: returns
`(open_tag, body, close_tag)` or raises `ValueError`. -/
def extract_speak_body (ssml_text : List Char) :
    Except (List Char) (List Char × List Char × List Char) :=
  extractBody (normalize_prolog ssml_text)

/-- `re.findall(r'(?s)(<\\s*voice\\b[^>]*>.*?<\\s*/\\s*voice\\s*>)', body, re.I)`:
repeatedly find the leftmost open `<voice ...>` tag, then the non-greedy
`.*?` runs to the first following `</voice>` close-tag match; scanning
resumes after the match (`re.findall` returns non-overlapping matches). -/
def findVoiceBlocksFuel : Nat → List Char → List (List Char)
  | 0, _ => []
  | fuel + 1, s =>
    match searchFrom (matchOpenTag voiceName) s with
    | none => []
    | some (_, otag, rest) =>
      match searchFrom (matchCloseTag true voiceName) rest with
      | none => []
      | some (mid, ctag, rest2) =>
        (otag ++ mid ++ ctag) :: findVoiceBlocksFuel fuel rest2

/-- Each successful iteration strictly shortens the remaining input, so any
fuel beyond the input length gives the same (fuel-independent) result:
the fuel never truncates the scan. -/
theorem findVoiceBlocksFuel_congr :
    ∀ (fuel fuel' : Nat) (s : List Char), s.length < fuel → s.length < fuel' →
      findVoiceBlocksFuel fuel s = findVoiceBlocksFuel fuel' s := by
  intro fuel
  induction fuel with
  | zero => intro fuel' s h; omega
  | succ f ih =>
    intro fuel' s h h'
    cases fuel' with
    | zero => omega
    | succ f' =>
      cases ho : searchFrom (matchOpenTag voiceName) s with
      | none => simp [findVoiceBlocksFuel, ho]
      | some pr1 =>
        obtain ⟨p, otag, rest⟩ := pr1
        cases hc : searchFrom (matchCloseTag true voiceName) rest with
        | none => simp [findVoiceBlocksFuel, ho, hc]
        | some pr2 =>
          obtain ⟨mid, ctag, rest2⟩ := pr2
          obtain ⟨e1, e2⟩ := searchFrom_split (fun _ _ _ hx => matchOpenTag_split hx) ho
          obtain ⟨e3, e4⟩ := searchFrom_split (fun _ _ _ hx => matchCloseTag_split hx) hc
          have l1 := congrArg List.length e1
          have l2 := congrArg List.length e3
          simp only [List.length_append] at l1 l2
          simp only [findVoiceBlocksFuel, ho, hc, List.cons.injEq, true_and]
          exact ih f' rest2 (by omega) (by omega)

/-- `re.findall(r'(?s)(<\\s*voice\\b[^>]*>.*?<\\s*/\\s*voice\\s*>)', body, re.I)`:
repeatedly find the leftmost open `<voice ...>` tag, then the non-greedy
`.*?` runs to the first following `</voice>` close-tag match; scanning
resumes after the match (`re.findall` returns non-overlapping matches).
The fuel `s.length + 1` never truncates the scan
(`findVoiceBlocksFuel_congr`). -/
def findVoiceBlocks (s : List Char) : List (List Char) :=
  findVoiceBlocksFuel (s.length + 1) s

/-- The accumulation loop of `split_ssml_by_voice`:
`for vb in voice_blocks: current.append(vb); if len(current) >= max_voices:
parts.append(...); current = []` followed by the final flush, returned as
the list of groups (each group is the `current` list of one emitted part). -/
def chunkGroupsAux (max_voices : Int) : List (List Char) → List (List Char) →
    List (List (List Char))
  | [], current => if current.isEmpty then [] else [current]
  | vb :: rest, current =>
    let cur := current ++ [vb]
    if (cur.length : Int) ≥ max_voices then cur :: chunkGroupsAux max_voices rest []
    else chunkGroupsAux max_voices rest cur

def chunkGroups (blocks : List (List Char)) (max_voices : Int) :
    List (List (List Char)) :=
  chunkGroupsAux max_voices blocks []

/-- The fallback of `split_ssml_by_voice`: if no `<voice>` block matches,
the whole body is treated as a single block. -/
def voiceBlocksOrBody (body : List Char) : List (List Char) :=
  match findVoiceBlocks body with
  | [] => [body]
  | bs => bs

/-- `open_tag + "\\n" + "\\n".join(current) + "\\n" + close_tag`. -/
def wrapChunk (open_tag close_tag : List Char) (g : List (List Char)) : List Char :=
  open_tag ++ '\n' :: (List.intercalate ['\n'] g ++ '\n' :: close_tag)

/-- `split_ssml_by_voice` from `azure_ssml_to_wav.py`. -/
def split_ssml_by_voice (ssml_text : List Char) (max_voices : Int) :
    Except (List Char) (List (List Char)) :=
  match extract_speak_body ssml_text with
  | .error e => .error e
  | .ok (open_tag, body, close_tag) =>
    .ok ((chunkGroups (voiceBlocksOrBody body) max_voices).map
      (wrapChunk open_tag close_tag))

theorem chunkGroupsAux_join (M : Int) :
    ∀ (blocks current : List (List Char)),
      (chunkGroupsAux M blocks current).join = current ++ blocks := by
  intro blocks
  induction blocks with
  | nil =>
    intro current
    simp only [chunkGroupsAux]
    by_cases h : current.isEmpty
    · simp [h, List.isEmpty_iff.mp h]
    · simp [h]
  | cons b rest ih =>
    intro current
    simp only [chunkGroupsAux]
    split
    next h =>
      simp [ih]
    next h =>
      simp [ih]

theorem chunkGroupsAux_length (m : Nat) (hm : 1 ≤ m) :
    ∀ (blocks current : List (List Char)), current.length < m →
      (chunkGroupsAux (m : Int) blocks current).length =
        (if current.length + blocks.length = 0 then 0
         else (current.length + blocks.length + m - 1) / m) := by
  intro blocks
  induction blocks with
  | nil =>
    intro current hc
    simp only [chunkGroupsAux]
    cases current with
    | nil => simp
    | cons x xs =>
      rw [if_neg (by simp), if_neg (by simp)]
      simp only [List.length_cons, List.length_nil, List.length_singleton]
      have h1 : 1 * m ≤ xs.length + 1 + 0 + m - 1 := by omega
      have h2 : xs.length + 1 + 0 + m - 1 < (1 + 1) * m := by
        simp only [List.length_cons] at hc; omega
      exact (Nat.div_eq_of_lt_le h1 h2).symm
  | cons b rest ih =>
    intro current hc
    simp only [chunkGroupsAux]
    split
    next h =>
      simp only [List.length_append, List.length_cons, List.length_nil] at h ⊢
      have hcm : current.length + 1 = m := by omega
      rw [ih [] (by simpa using hm)]
      simp only [List.length_nil, Nat.zero_add]
      rw [if_neg (show ¬(current.length + (rest.length + 1) = 0) by omega)]
      cases rest.length with
      | zero =>
        rw [if_pos rfl]
        have h1 : 1 * m ≤ current.length + (0 + 1) + m - 1 := by omega
        have h2 : current.length + (0 + 1) + m - 1 < (1 + 1) * m := by omega
        simpa using (Nat.div_eq_of_lt_le h1 h2).symm
      | succ k =>
        rw [if_neg (by omega)]
        have e1 : current.length + (k + 1 + 1) + m - 1 = (k + 1 + m - 1) + m := by omega
        rw [e1, Nat.add_div_right _ (by omega)]
    next h =>
      simp only [List.length_append, List.length_cons, List.length_nil] at h ⊢
      have hlt : (current ++ [b]).length < m := by simp; omega
      rw [ih (current ++ [b]) hlt]
      simp only [List.length_append, List.length_singleton, List.length_cons,
        List.length_nil, Nat.zero_add]
      have e : current.length + 1 + rest.length = current.length + (rest.length + 1) := by omega
      rw [e]

theorem chunkGroupsAux_bound (m : Nat) (hm : 1 ≤ m) :
    ∀ (blocks current : List (List Char)), current.length < m →
      ∀ g ∈ chunkGroupsAux (m : Int) blocks current, g.length ≤ m := by
  intro blocks
  induction blocks with
  | nil =>
    intro current hc g hg
    simp only [chunkGroupsAux] at hg
    split at hg
    · simp at hg
    · simp at hg
      subst hg
      omega
  | cons b rest ih =>
    intro current hc g hg
    simp only [chunkGroupsAux] at hg
    split at hg
    next h =>
      simp only [List.length_append, List.length_cons, List.length_nil] at h
      rcases List.mem_cons.mp hg with h1 | h1
      · subst h1
        simp
        omega
      · exact ih [] (by simpa using hm) g h1
    next h =>
      simp only [List.length_append, List.length_cons, List.length_nil] at h
      exact ih (current ++ [b]) (by simp; omega) g hg

theorem chunkGroupsAux_ne_nil (M : Int) :
    ∀ (blocks current : List (List Char)), ∀ g ∈ chunkGroupsAux M blocks current,
      g ≠ [] := by
  intro blocks
  induction blocks with
  | nil =>
    intro current g hg
    simp only [chunkGroupsAux] at hg
    split at hg
    next h => simp at hg
    next h =>
      simp at hg
      subst hg
      simpa using h
  | cons b rest ih =>
    intro current g hg
    simp only [chunkGroupsAux] at hg
    split at hg
    next h =>
      rcases List.mem_cons.mp hg with h1 | h1
      · subst h1; simp
      · exact ih [] g h1
    next h =>
      exact ih (current ++ [b]) g hg

theorem chunkGroups_singleton (m : Nat) (hm : 1 ≤ m) (body : List Char) :
    chunkGroups [body] (m : Int) = [[body]] := by
  unfold chunkGroups
  have hlen : (chunkGroupsAux (m : Int) [body] []).length = 1 := by
    rw [chunkGroupsAux_length m hm [body] [] (by simpa using hm)]
    rw [if_neg (by simp)]
    have e : ([] : List (List Char)).length + ([body] : List (List Char)).length + m - 1
        = m := by
      simp only [List.length_nil, List.length_singleton]
      omega
    rw [e]
    exact Nat.div_self (by omega)
  have hjoin : (chunkGroupsAux (m : Int) [body] []).join = [body] := by
    rw [chunkGroupsAux_join]
    simp
  obtain ⟨g, hg⟩ := List.length_eq_one.mp hlen
  rw [hg] at hjoin ⊢
  simp at hjoin
  rw [hjoin]

/-- Claim C1: for every document whose normalized body contains `N`
`<voice>` sub-elements (as matched by the splitter's regex), splitting with
a positive maximum chunk size `M` produces exactly `⌈N/M⌉` chunk documents
when `N > 0`, and exactly one chunk document containing the raw body when
`N = 0`. -/
theorem split_chunk_count (ssml ot body ct : List Char) (m : Nat) (hm : 1 ≤ m)
    (hex : extract_speak_body ssml = .ok (ot, body, ct)) :
    ∃ parts, split_ssml_by_voice ssml (m : Int) = .ok parts ∧
      parts.length = (if (findVoiceBlocks body).length = 0 then 1
        else ((findVoiceBlocks body).length + m - 1) / m) ∧
      ((findVoiceBlocks body).length = 0 → parts = [wrapChunk ot ct [body]]) := by
  refine ⟨(chunkGroups (voiceBlocksOrBody body) (m : Int)).map (wrapChunk ot ct),
    ?_, ?_, ?_⟩
  · unfold split_ssml_by_voice
    rw [hex]
  · rw [List.length_map]
    cases hfb : findVoiceBlocks body with
    | nil =>
      rw [if_pos (show List.length ([] : List (List Char)) = 0 from rfl)]
      unfold voiceBlocksOrBody
      rw [hfb, chunkGroups_singleton m hm]
      rfl
    | cons x xs =>
      rw [if_neg (by simp)]
      unfold voiceBlocksOrBody chunkGroups
      rw [hfb]
      rw [chunkGroupsAux_length m hm (x :: xs) [] (by simpa using hm)]
      rw [if_neg (by simp)]
      simp
  · intro h0
    have hfb : findVoiceBlocks body = [] := List.length_eq_zero.mp h0
    unfold voiceBlocksOrBody
    rw [hfb, chunkGroups_singleton m hm]
    rfl

theorem split_chunk_count_witness :
    ∃ parts, split_ssml_by_voice
        "<speak><voice a>1</voice><voice b>2</voice><voice c>3</voice></speak>".data
        ((2 : Nat) : Int) = .ok parts ∧
      parts.length =
        (if (findVoiceBlocks
              "<voice a>1</voice><voice b>2</voice><voice c>3</voice>".data).length = 0
         then 1
         else ((findVoiceBlocks
              "<voice a>1</voice><voice b>2</voice><voice c>3</voice>".data).length
              + 2 - 1) / 2) ∧
      ((findVoiceBlocks
          "<voice a>1</voice><voice b>2</voice><voice c>3</voice>".data).length = 0 →
        parts = [wrapChunk "<speak>".data "</speak>".data
          ["<voice a>1</voice><voice b>2</voice><voice c>3</voice>".data]]) :=
  split_chunk_count _ "<speak>".data
    "<voice a>1</voice><voice b>2</voice><voice c>3</voice>".data "</speak>".data
    2 (by omega) (by rfl)

theorem split_ssml_eq_of_ok {ssml ot body ct : List Char} {M : Int}
    (hex : extract_speak_body ssml = .ok (ot, body, ct)) :
    split_ssml_by_voice ssml M =
      .ok ((chunkGroups (voiceBlocksOrBody body) M).map (wrapChunk ot ct)) := by
  unfold split_ssml_by_voice
  rw [hex]

/-- Claim C2: for every split of a body into chunks with positive maximum
chunk size `M`, every chunk's group contains at most `M` `<voice>`
sub-elements, and the concatenation of all chunks' sub-element sequences in
chunk order is exactly the original sequence of matched sub-elements — no
element lost, reordered, or duplicated. -/
theorem split_partition (ssml ot body ct : List Char) (m : Nat) (hm : 1 ≤ m)
    (hex : extract_speak_body ssml = .ok (ot, body, ct)) :
    split_ssml_by_voice ssml (m : Int) =
        .ok ((chunkGroups (voiceBlocksOrBody body) (m : Int)).map (wrapChunk ot ct)) ∧
      (∀ g ∈ chunkGroups (voiceBlocksOrBody body) (m : Int), g.length ≤ m) ∧
      (chunkGroups (voiceBlocksOrBody body) (m : Int)).join = voiceBlocksOrBody body ∧
      (findVoiceBlocks body ≠ [] → voiceBlocksOrBody body = findVoiceBlocks body) := by
  refine ⟨?_, ?_, ?_, ?_⟩
  · unfold split_ssml_by_voice
    rw [hex]
  · exact chunkGroupsAux_bound m hm (voiceBlocksOrBody body) [] (by simpa using hm)
  · unfold chunkGroups
    rw [chunkGroupsAux_join]
    simp
  · intro hne
    unfold voiceBlocksOrBody
    cases hfb : findVoiceBlocks body with
    | nil => exact absurd hfb hne
    | cons x xs => rfl

theorem split_partition_witness :
    split_ssml_by_voice
        "<speak><voice a>1</voice>mid<voice b>2</voice></speak>".data
        ((2 : Nat) : Int) =
      .ok ((chunkGroups (voiceBlocksOrBody
          "<voice a>1</voice>mid<voice b>2</voice>".data) ((2 : Nat) : Int)).map
        (wrapChunk "<speak>".data "</speak>".data)) ∧
      (∀ g ∈ chunkGroups (voiceBlocksOrBody
          "<voice a>1</voice>mid<voice b>2</voice>".data) ((2 : Nat) : Int),
        g.length ≤ 2) ∧
      (chunkGroups (voiceBlocksOrBody
          "<voice a>1</voice>mid<voice b>2</voice>".data) ((2 : Nat) : Int)).join =
        voiceBlocksOrBody "<voice a>1</voice>mid<voice b>2</voice>".data ∧
      (findVoiceBlocks "<voice a>1</voice>mid<voice b>2</voice>".data ≠ [] →
        voiceBlocksOrBody "<voice a>1</voice>mid<voice b>2</voice>".data =
          findVoiceBlocks "<voice a>1</voice>mid<voice b>2</voice>".data) :=
  split_partition _ "<speak>".data "<voice a>1</voice>mid<voice b>2</voice>".data
    "</speak>".data 2 (by omega) (by rfl)

/-- Claim C10: for every body with at least one matched `<voice>` block, each
produced chunk is exactly the root open tag, a newline-joined run of
consecutive matched voice blocks, and the root close tag; body text lying
outside the matched blocks appears in no chunk (two documents whose bodies
yield the same matched-block sequence split identically). -/
theorem split_chunk_structure (s1 s2 ot b1 b2 ct : List Char) (M : Int)
    (h1 : extract_speak_body s1 = .ok (ot, b1, ct))
    (h2 : extract_speak_body s2 = .ok (ot, b2, ct))
    (hb : findVoiceBlocks b1 = findVoiceBlocks b2)
    (hne : findVoiceBlocks b1 ≠ []) :
    split_ssml_by_voice s1 M = split_ssml_by_voice s2 M ∧
      ∃ groups : List (List (List Char)),
        groups.join = findVoiceBlocks b1 ∧
        (∀ g ∈ groups, g ≠ []) ∧
        split_ssml_by_voice s1 M =
          .ok (groups.map fun g =>
            ot ++ '\n' :: (List.intercalate ['\n'] g ++ '\n' :: ct)) := by
  have hv : voiceBlocksOrBody b1 = voiceBlocksOrBody b2 := by
    unfold voiceBlocksOrBody
    rw [hb]
    cases hfb : findVoiceBlocks b2 with
    | nil => exact absurd (hb.trans hfb) hne
    | cons x xs => rfl
  have hvv : voiceBlocksOrBody b1 = findVoiceBlocks b1 := by
    unfold voiceBlocksOrBody
    cases hfb : findVoiceBlocks b1 with
    | nil => exact absurd hfb hne
    | cons x xs => rfl
  refine ⟨?_, chunkGroups (findVoiceBlocks b1) M, ?_, ?_, ?_⟩
  · rw [split_ssml_eq_of_ok h1, split_ssml_eq_of_ok h2, hv]
  · unfold chunkGroups
    rw [chunkGroupsAux_join]
    simp
  · exact chunkGroupsAux_ne_nil M (findVoiceBlocks b1) []
  · rw [split_ssml_eq_of_ok h1, hvv]
    rfl

theorem split_chunk_structure_witness :
    split_ssml_by_voice
        "<speak>pre<voice a>1</voice>mid<voice b>2</voice>post</speak>".data (48 : Int) =
      split_ssml_by_voice "<speak><voice a>1</voice><voice b>2</voice></speak>".data
        (48 : Int) ∧
      ∃ groups : List (List (List Char)),
        groups.join =
          findVoiceBlocks "pre<voice a>1</voice>mid<voice b>2</voice>post".data ∧
        (∀ g ∈ groups, g ≠ []) ∧
        split_ssml_by_voice
            "<speak>pre<voice a>1</voice>mid<voice b>2</voice>post</speak>".data
            (48 : Int) =
          .ok (groups.map fun g =>
            "<speak>".data ++ '\n' ::
              (List.intercalate ['\n'] g ++ '\n' :: "</speak>".data)) :=
  split_chunk_structure _ _ "<speak>".data
    "pre<voice a>1</voice>mid<voice b>2</voice>post".data
    "<voice a>1</voice><voice b>2</voice>".data "</speak>".data 48
    (by rfl) (by rfl) (by rfl) (by decide)

/-- A parsed WAV file as `concat_wavs` reads it: the `wave` module's
channel count, sample width and frame rate, plus the raw frame bytes
(`readframes(getnframes())`). -/
structure WavFile where
  nchannels : Nat
  sampwidth : Nat
  framerate : Nat
  frames : List Nat
deriving DecidableEq

/-- The tuple `(w.getnchannels(), w.getsampwidth(), w.getframerate())`. -/
def wavParams (w : WavFile) : Nat × Nat × Nat :=
  (w.nchannels, w.sampwidth, w.framerate)

/-- The errors `concat_wavs` raises: `ValueError("No WAV parts...")` and
`ValueError(f"WAV format mismatch in {p}: {cur} vs {params}")` — the
mismatch message carries the offending path, its parameters, and the
expected parameters. -/
inductive ConcatError where
  | emptyInput : ConcatError
  | formatMismatch (path : List Char) (cur expected : Nat × Nat × Nat) : ConcatError
deriving DecidableEq

/-- The read loop of `concat_wavs` over the files after the first, with
`params` already set from the first file: collects each file's frame data,
or raises on the first parameter mismatch. -/
def concatScan (expected : Nat × Nat × Nat) :
    List (List Char × WavFile) → Except ConcatError (List (List Nat))
  | [] => .ok []
  | (p, w) :: rest =>
    if wavParams w = expected then
      (concatScan expected rest).map (fun frs => w.frames :: frs)
    else .error (.formatMismatch p (wavParams w) expected)

/-- `concat_wavs` from `azure_ssml_to_wav.py`, over the parsed input files
(in `wav_paths` order).  The code reads every input before opening the
output, so on error no output file is written; the `.ok` value is the
output file it writes: the first file's parameters and the concatenation
of all frame data in input order. -/
def concat_wavs : List (List Char × WavFile) → Except ConcatError WavFile
  | [] => .error .emptyInput
  | (p, w) :: rest =>
    (concatScan (wavParams w) ((p, w) :: rest)).map fun frs =>
      ⟨w.nchannels, w.sampwidth, w.framerate, frs.join⟩

theorem concatScan_ok (expected : Nat × Nat × Nat) :
    ∀ (l : List (List Char × WavFile)),
      (∀ pw ∈ l, wavParams pw.2 = expected) →
      concatScan expected l = .ok (l.map fun pw => pw.2.frames) := by
  intro l
  induction l with
  | nil => intro h; rfl
  | cons pw rest ih =>
    intro h
    obtain ⟨p, w⟩ := pw
    simp only [concatScan]
    rw [if_pos (h (p, w) (by simp))]
    rw [ih (fun x hx => h x (by simp [hx]))]
    rfl

theorem concatScan_mismatch (expected : Nat × Nat × Nat) :
    ∀ (l : List (List Char × WavFile)),
      (∃ pw ∈ l, wavParams pw.2 ≠ expected) →
      ∃ p w, (p, w) ∈ l ∧ wavParams w ≠ expected ∧
        concatScan expected l = .error (.formatMismatch p (wavParams w) expected) := by
  intro l
  induction l with
  | nil =>
    intro h
    obtain ⟨pw, hm, _⟩ := h
    simp at hm
  | cons pw rest ih =>
    intro h
    obtain ⟨p, w⟩ := pw
    by_cases hw : wavParams w = expected
    · obtain ⟨bad, hmem, hne⟩ := h
      have hrest : ∃ pw ∈ rest, wavParams pw.2 ≠ expected := by
        rcases List.mem_cons.mp hmem with h1 | h1
        · exact absurd (by rw [h1]; exact hw) hne
        · exact ⟨bad, h1, hne⟩
      obtain ⟨p1, w1, hm1, hn1, he1⟩ := ih hrest
      refine ⟨p1, w1, by simp [hm1], hn1, ?_⟩
      simp only [concatScan]
      rw [if_pos hw, he1]
      rfl
    · exact ⟨p, w, by simp, hw, by simp only [concatScan]; rw [if_neg hw]⟩

/-- Claim C3: for every non-empty sequence of audio files with identical
`(channel_count, sample_width, frame_rate)` parameters, `concat_wavs`
succeeds and the written output has the common parameters and frame data
equal to the concatenation of each input's frame data in input order. -/
theorem concat_wavs_ok (wavs : List (List Char × WavFile)) (p0 : List Char)
    (w0 : WavFile) (hhead : wavs.head? = some (p0, w0))
    (hall : ∀ pw ∈ wavs, wavParams pw.2 = wavParams w0) :
    concat_wavs wavs = .ok ⟨w0.nchannels, w0.sampwidth, w0.framerate,
      (wavs.map fun pw => pw.2.frames).join⟩ := by
  cases wavs with
  | nil => simp at hhead
  | cons pw rest =>
    obtain ⟨p, w⟩ := pw
    have he : p = p0 ∧ w = w0 := by simpa using hhead
    obtain ⟨hp, hw⟩ := he
    subst hp hw
    simp only [concat_wavs]
    rw [concatScan_ok (wavParams w) ((p, w) :: rest) hall]
    rfl

theorem concat_wavs_ok_witness :
    concat_wavs [("a.wav".data, ⟨1, 2, 24000, [7, 8]⟩),
                 ("b.wav".data, ⟨1, 2, 24000, [9]⟩)] =
      .ok ⟨1, 2, 24000, ([[7, 8], [9]].map id).join⟩ := by
  have h := concat_wavs_ok
    [("a.wav".data, ⟨1, 2, 24000, [7, 8]⟩), ("b.wav".data, ⟨1, 2, 24000, [9]⟩)]
    "a.wav".data ⟨1, 2, 24000, [7, 8]⟩ (by rfl) (by decide)
  simpa using h

/-- Claim C4: if some file's parameters differ from the first file's,
`concat_wavs` raises a format-mismatch error naming an offending file and
the expected versus actual parameters, and returns no output file. -/
theorem concat_wavs_mismatch (wavs : List (List Char × WavFile)) (p0 : List Char)
    (w0 : WavFile) (hhead : wavs.head? = some (p0, w0))
    (hbad : ∃ pw ∈ wavs, wavParams pw.2 ≠ wavParams w0) :
    ∃ p w, (p, w) ∈ wavs ∧ wavParams w ≠ wavParams w0 ∧
      concat_wavs wavs = .error (.formatMismatch p (wavParams w) (wavParams w0)) := by
  cases wavs with
  | nil => simp at hhead
  | cons pw rest =>
    obtain ⟨p, w⟩ := pw
    have he : p = p0 ∧ w = w0 := by simpa using hhead
    obtain ⟨hp, hw⟩ := he
    subst hp hw
    obtain ⟨p1, w1, hm1, hn1, he1⟩ := concatScan_mismatch (wavParams w)
      ((p, w) :: rest) hbad
    refine ⟨p1, w1, hm1, hn1, ?_⟩
    simp only [concat_wavs]
    rw [he1]
    rfl

theorem concat_wavs_mismatch_witness :
    ∃ p w, (p, w) ∈ [("a.wav".data, (⟨1, 2, 24000, [7]⟩ : WavFile)),
                     ("b.wav".data, ⟨2, 2, 44100, [9]⟩)] ∧
      wavParams w ≠ wavParams (⟨1, 2, 24000, [7]⟩ : WavFile) ∧
      concat_wavs [("a.wav".data, ⟨1, 2, 24000, [7]⟩), ("b.wav".data, ⟨2, 2, 44100, [9]⟩)] =
        .error (.formatMismatch p (wavParams w)
          (wavParams (⟨1, 2, 24000, [7]⟩ : WavFile))) :=
  concat_wavs_mismatch
    [("a.wav".data, ⟨1, 2, 24000, [7]⟩), ("b.wav".data, ⟨2, 2, 44100, [9]⟩)]
    "a.wav".data ⟨1, 2, 24000, [7]⟩ (by rfl) (by decide)

/-- Outcome of one `synthesizer.speak_ssml_async(...).get()` call, as the
retry loop of `synthesize_to_wav` distinguishes them: a raised exception, a
`SynthesizingAudioCompleted` result, a `Canceled` result carrying the
cancellation's error code string and error details string, or any other
result reason. -/
inductive SynthOutcome where
  | exn : SynthOutcome
  | completed : SynthOutcome
  | canceled (code errorDetails : List Char) : SynthOutcome
  | other : SynthOutcome
deriving DecidableEq

/-- The transient-cancellation test:
`"ConnectionFailure" in str(code) or "timeout" in err.lower()`. -/
def isTransientCancel (code err : List Char) : Bool :=
  containsSeq "ConnectionFailure".data code ||
    containsSeq "timeout".data (err.map Char.toLower)

/-- Observable trace of one `synthesize_to_wav` run: the returned boolean,
the number of synthesis calls made, and the list of back-off sleeps (in
seconds) in order. -/
structure SynthTrace where
  success : Bool
  calls : Nat
  sleeps : List ℚ
deriving DecidableEq

/-- The `while attempt <= retries` loop of `synthesize_to_wav`, driven by an
oracle giving the outcome of the `attempt`-th call (1-based).  The loop
counter is encoded by `remaining = retries + 1 - attempt`, the number of
iterations the guard still allows, so the inner `attempt <= retries`
check (after `attempt += 1`) reads `1 ≤ remaining - 1`; `attempt` is
carried to compute the `time.sleep(1.5 * attempt)` back-off. -/
def synthLoop (outcomes : Nat → SynthOutcome) : Nat → Nat → SynthTrace
  | 0, _ => ⟨false, 0, []⟩
  | rem + 1, attempt =>
    match outcomes (attempt + 1) with
    | .exn =>
      let t := synthLoop outcomes rem (attempt + 1)
      ⟨t.success, t.calls + 1, (3 / 2 * ((attempt + 1 : Nat) : ℚ)) :: t.sleeps⟩
    | .completed => ⟨true, 1, []⟩
    | .canceled code err =>
      if isTransientCancel code err then
        if 1 ≤ rem then
          let t := synthLoop outcomes rem (attempt + 1)
          ⟨t.success, t.calls + 1, (3 / 2 * ((attempt + 1 : Nat) : ℚ)) :: t.sleeps⟩
        else ⟨false, 1, []⟩
      else ⟨false, 1, []⟩
    | .other =>
      let t := synthLoop outcomes rem (attempt + 1)
      ⟨t.success, t.calls + 1, t.sleeps⟩

/-- `synthesize_to_wav` from `azure_ssml_to_wav.py`, abstracted over the
remote synthesis outcomes; `attempt` starts at `0`, so the guard allows
`retries + 1` iterations. -/
def synthesize_to_wav (outcomes : Nat → SynthOutcome) (retries : Int) : SynthTrace :=
  synthLoop outcomes (retries + 1).toNat 0

/-- An outcome the loop retries: a transport-level exception, or a remote
cancellation whose code/details indicate a connection failure or timeout. -/
def TransientOutcome (o : SynthOutcome) : Prop :=
  o = .exn ∨ ∃ c e, o = .canceled c e ∧ isTransientCancel c e = true

/-- Claim C5: with retry budget 2, a transient failure (exception or
transient cancellation) on attempts 1 and 2 followed by success on attempt 3
yields overall success after back-offs of `1.5 * 1` and `1.5 * 2` seconds
and exactly 3 calls; a non-transient cancellation on attempt 1 yields
failure immediately, with one call and no retries or sleeps. -/
theorem synth_retry_behavior :
    (∀ outcomes : Nat → SynthOutcome, TransientOutcome (outcomes 1) →
      TransientOutcome (outcomes 2) → outcomes 3 = .completed →
      synthesize_to_wav outcomes 2 = ⟨true, 3, [3 / 2, 3]⟩) ∧
    (∀ (outcomes : Nat → SynthOutcome) (c e : List Char),
      outcomes 1 = .canceled c e → isTransientCancel c e = false →
      synthesize_to_wav outcomes 2 = ⟨false, 1, []⟩) := by
  constructor
  · intro oc h1 h2 h3
    have e0 : synthesize_to_wav oc 2 = synthLoop oc 3 0 := rfl
    rw [e0]
    rcases h1 with he1 | ⟨c1, e1, hc1, ht1⟩
    · rcases h2 with he2 | ⟨c2, e2, hc2, ht2⟩
      · simp [synthLoop, he1, he2, h3]
      · simp [synthLoop, he1, hc2, ht2, h3]
    · rcases h2 with he2 | ⟨c2, e2, hc2, ht2⟩
      · simp [synthLoop, hc1, ht1, he2, h3]
      · simp [synthLoop, hc1, ht1, hc2, ht2, h3]
  · intro oc c e h1 ht
    have e0 : synthesize_to_wav oc 2 = synthLoop oc 3 0 := rfl
    rw [e0]
    simp [synthLoop, h1, ht]

theorem synth_retry_behavior_witness :
    (synthesize_to_wav
        (fun n => if n = 1 then .exn
                  else if n = 2 then .canceled "CancellationErrorCode.ConnectionFailure".data []
                  else .completed) 2 = ⟨true, 3, [3 / 2, 3]⟩) ∧
    (synthesize_to_wav
        (fun n => if n = 1 then .canceled "CancellationErrorCode.AuthenticationFailure".data
                    "invalid key".data
                  else .completed) 2 = ⟨false, 1, []⟩) :=
  ⟨synth_retry_behavior.1 _
      (by left; rfl)
      (by right; exact ⟨_, _, rfl, by decide⟩)
      (by rfl),
   synth_retry_behavior.2 _ _ _ rfl (by decide)⟩

/-- Python `int(...)` on a real value: truncation toward zero. -/
def pyTrunc (q : ℚ) : Int := if q < 0 then ⌈q⌉ else ⌊q⌋

/-- Python `//` on real values: floor division. -/
def pyFloorDiv (a b : ℚ) : ℚ := ((⌊a / b⌋ : Int) : ℚ)

/-- Python `%` on real values: `a - b * (a // b)`. -/
def pyMod (a b : ℚ) : ℚ := a - b * ((⌊a / b⌋ : Int) : ℚ)

/-- Python 3 `round(...)` with no digits: nearest integer, ties to even. -/
def pyRound (q : ℚ) : Int :=
  if q - ((⌊q⌋ : Int) : ℚ) < 1 / 2 then ⌊q⌋
  else if 1 / 2 < q - ((⌊q⌋ : Int) : ℚ) then ⌊q⌋ + 1
  else if Even ⌊q⌋ then ⌊q⌋ else ⌊q⌋ + 1

/-- Decimal digits of a natural number, most significant first (the fuel
`n + 1` is ample since `n / 10 < n` for `n ≥ 10`). -/
def natDecAux : Nat → Nat → List Char
  | 0, _ => []
  | fuel + 1, n =>
    if n < 10 then [Char.ofNat (48 + n)]
    else natDecAux fuel (n / 10) ++ [Char.ofNat (48 + n % 10)]

def natDec (n : Nat) : List Char := natDecAux (n + 1) n

/-- `str.zfill`-style left padding as done by a `0`-flagged width in an
f-string: pad on the left to the requested width. -/
def leftPad (w : Nat) (c : Char) (s : List Char) : List Char :=
  List.replicate (w - s.length) c ++ s

/-- `f"{n:0wd}"`: zero-padded fixed-width decimal; a negative number keeps
its sign ahead of the zero padding. -/
def intPad (w : Nat) (n : Int) : List Char :=
  if n < 0 then '-' :: leftPad (w - 1) '0' (natDec (-n).toNat)
  else leftPad w '0' (natDec n.toNat)

/-- `sec_to_srt` from `azure_speech_to_text.py`:
`h=int(t//3600); m=int((t%3600)//60); s=int(t%60);
ms=int(round((t-int(t))*1000))` rendered as
`f"{h:02d}:{m:02d}:{s:02d},{ms:03d}"`. -/
def sec_to_srt (t : ℚ) : List Char :=
  intPad 2 (pyTrunc (pyFloorDiv t 3600)) ++ ':' ::
    (intPad 2 (pyTrunc (pyFloorDiv (pyMod t 3600) 60)) ++ ':' ::
      (intPad 2 (pyTrunc (pyMod t 60)) ++ ',' ::
        intPad 3 (pyRound ((t - ((pyTrunc t : Int) : ℚ)) * 1000))))

/-- `f"{q:06.3f}"`: fixed-point with 3 decimals (correctly rounded, ties to
even) zero-padded to total width 6. -/
def floatFix3Pad6 (q : ℚ) : List Char :=
  if pyRound (q * 1000) < 0 then
    '-' :: leftPad 5 '0'
      (natDec ((-(pyRound (q * 1000))).toNat / 1000) ++ '.' ::
        leftPad 3 '0' (natDec ((-(pyRound (q * 1000))).toNat % 1000)))
  else
    leftPad 6 '0'
      (natDec ((pyRound (q * 1000)).toNat / 1000) ++ '.' ::
        leftPad 3 '0' (natDec ((pyRound (q * 1000)).toNat % 1000)))

/-- `sec_to_vtt` from `azure_speech_to_text.py`:
`h=int(t//3600); m=int((t%3600)//60); sec=(t%60)` rendered as
`f"{h:02d}:{m:02d}:{sec:06.3f}"`. -/
def sec_to_vtt (t : ℚ) : List Char :=
  intPad 2 (pyTrunc (pyFloorDiv t 3600)) ++ ':' ::
    (intPad 2 (pyTrunc (pyFloorDiv (pyMod t 3600) 60)) ++ ':' ::
      floatFix3Pad6 (pyMod t 60))

/-- One recognized segment: `{"start": ..., "end": ..., "text": ...}`. -/
structure Segment where
  tstart : ℚ
  tend : ℚ
  text : List Char

/-- One SRT cue block:
`f"{i}\\n{sec_to_srt(s['start'])} --> {sec_to_srt(s['end'])}\\n{s['text']}\\n\\n"`. -/
def srtEntry (i : Nat) (s : Segment) : List Char :=
  natDec i ++ '\n' ::
    (sec_to_srt s.tstart ++ " --> ".data ++ sec_to_srt s.tend ++ '\n' ::
      (s.text ++ ['\n', '\n']))

/-- The SRT file content written by `transcribe_one`: cue blocks for
`enumerate(segments, 1)`. -/
def srtFile (segs : List Segment) : List Char :=
  ((List.enumFrom 1 segs).map fun p => srtEntry p.1 p.2).join

/-- One WebVTT cue block:
`f"{sec_to_vtt(s['start'])} --> {sec_to_vtt(s['end'])}\\n{s['text']}\\n\\n"`. -/
def vttEntry (s : Segment) : List Char :=
  sec_to_vtt s.tstart ++ " --> ".data ++ sec_to_vtt s.tend ++ '\n' ::
    (s.text ++ ['\n', '\n'])

/-- The WebVTT file content written by `transcribe_one`: the literal header
`"WEBVTT\\n\\n"` followed by the cue blocks. -/
def vttFile (segs : List Segment) : List Char :=
  "WEBVTT\n\n".data ++ (segs.map vttEntry).join

/-- Claim C7: for the segments `[{0.0, 1.5, "A"}, {1.5, 3.25, "B"}]` the SRT
file content and the WebVTT file content are exactly the literals stated in
the specification.  The time values and all intermediate arithmetic are
exactly representable in binary floating point, so the rational model
coincides with the Python computation. -/
theorem subtitle_file_contents :
    srtFile [⟨0, 3 / 2, "A".data⟩, ⟨3 / 2, 13 / 4, "B".data⟩] =
      "1\n00:00:00,000 --> 00:00:01,500\nA\n\n2\n00:00:01,500 --> 00:00:03,250\nB\n\n".data ∧
    vttFile [⟨0, 3 / 2, "A".data⟩, ⟨3 / 2, 13 / 4, "B".data⟩] =
      "WEBVTT\n\n00:00:00.000 --> 00:00:01.500\nA\n\n00:00:01.500 --> 00:00:03.250\nB\n\n".data :=
  ⟨by decide, by decide⟩

/-- Python truthiness of `os.environ.get(...)`: `None` and the empty string
are falsy. -/
def pyTruthy : Option (List Char) → Bool
  | none => false
  | some s => !s.isEmpty

/-- Which constructor call configures the remote connection:
`SpeechConfig(subscription=..., region=...)` or
`SpeechConfig(subscription=..., endpoint=...)`. -/
inductive SpeechConfigSource where
  | fromRegion (region : List Char) : SpeechConfigSource
  | fromEndpoint (endpoint : List Char) : SpeechConfigSource
deriving DecidableEq

/-- The two `SystemExit` errors of the credential block. -/
inductive ConfigError where
  | missingKey : ConfigError
  | missingRegionAndEndpoint : ConfigError
deriving DecidableEq

/-- The credential/configuration block of `transcribe_one`
(`azure_speech_to_text.py` lines 35-46): read `SPEECH_KEY`,
`SPEECH_REGION`, `SPEECH_ENDPOINT`; exit if the key is missing or both
region and endpoint are missing; then
`if speech_endpoint: SpeechConfig(..., endpoint=...) else
SpeechConfig(..., region=...)`. -/
def transcribeConfig (key region endpoint : Option (List Char)) :
    Except ConfigError SpeechConfigSource :=
  if !pyTruthy key then .error .missingKey
  else if !(pyTruthy region || pyTruthy endpoint) then
    .error .missingRegionAndEndpoint
  else if pyTruthy endpoint then .ok (.fromEndpoint (endpoint.getD []))
  else .ok (.fromRegion (region.getD []))

/-- Claim C9 concerns the code's behaviour when both `SPEECH_REGION` and
`SPEECH_ENDPOINT` are set: the claim (like the script's own comment
`"读取凭据：优先 Region，其次 Endpoint"` and its docstring) says the region is
preferred, but the code tests `speech_endpoint` first, so the configuration
is constructed from the endpoint.  This theorem evaluates the code at such
an input, exhibiting the divergence. -/
theorem transcribe_config_uses_endpoint_when_both_set :
    transcribeConfig (some "k".data) (some "canadacentral".data)
        (some "https://example.contoso".data) =
      .ok (.fromEndpoint "https://example.contoso".data) ∧
    transcribeConfig (some "k".data) (some "canadacentral".data)
        (some "https://example.contoso".data) ≠
      .ok (.fromRegion "canadacentral".data) :=
  ⟨by decide, by decide⟩

theorem pyTrunc_intCast (n : ℤ) : pyTrunc ((n : ℤ) : ℚ) = n := by
  unfold pyTrunc
  split
  · exact Int.ceil_intCast n
  · exact Int.floor_intCast n

theorem pyTrunc_eq_floor {q : ℚ} (h : 0 ≤ q) : pyTrunc q = ⌊q⌋ := by
  unfold pyTrunc
  rw [if_neg (not_lt.mpr h)]

theorem floor_div_int_pos (a : ℚ) (n : ℤ) (hn : 0 < n) :
    ⌊a / ((n : ℤ) : ℚ)⌋ = ⌊a⌋ / n := by
  have h1 : ((⌊a⌋ : ℤ) : ℚ) ≤ a := Int.floor_le a
  have h2 : a < (⌊a⌋ : ℚ) + 1 := Int.lt_floor_add_one a
  have e1 : n * (⌊a⌋ / n) + ⌊a⌋ % n = ⌊a⌋ := Int.ediv_add_emod ⌊a⌋ n
  have e2 : 0 ≤ ⌊a⌋ % n := Int.emod_nonneg ⌊a⌋ (by omega)
  have e3 : ⌊a⌋ % n < n := Int.emod_lt_of_pos ⌊a⌋ hn
  have hnq : (0 : ℚ) < ((n : ℤ) : ℚ) := by exact_mod_cast hn
  rw [Int.floor_eq_iff]
  constructor
  · rw [le_div_iff hnq]
    have : ((⌊a⌋ / n : ℤ) : ℚ) * ((n : ℤ) : ℚ) = ((n * (⌊a⌋ / n) : ℤ) : ℚ) := by
      push_cast
      ring
    rw [this]
    calc ((n * (⌊a⌋ / n) : ℤ) : ℚ) ≤ ((⌊a⌋ : ℤ) : ℚ) := by
          exact_mod_cast by omega
      _ ≤ a := h1
  · rw [div_lt_iff hnq]
    have e4 : ((⌊a⌋ : ℤ) : ℚ) + 1 ≤ (((⌊a⌋ / n : ℤ) : ℚ) + 1) * ((n : ℤ) : ℚ) := by
      have h5 : (⌊a⌋ : ℤ) + 1 ≤ (⌊a⌋ / n + 1) * n := by
        have : (⌊a⌋ / n + 1) * n = n * (⌊a⌋ / n) + n := by ring
        omega
      exact_mod_cast h5
    calc a < (⌊a⌋ : ℚ) + 1 := h2
      _ ≤ _ := e4

theorem pyMod_nonneg (t : ℚ) (n : ℚ) (hn : 0 < n) : 0 ≤ pyMod t n := by
  unfold pyMod
  rw [sub_nonneg]
  calc n * ((⌊t / n⌋ : ℤ) : ℚ) ≤ n * (t / n) :=
        mul_le_mul_of_nonneg_left (Int.floor_le _) hn.le
    _ = t := mul_div_cancel₀ t (ne_of_gt hn)

theorem pyMod_floor (t : ℚ) (n : ℤ) (hn : 0 < n) :
    ⌊pyMod t ((n : ℤ) : ℚ)⌋ = ⌊t⌋ - n * (⌊t⌋ / n) := by
  unfold pyMod
  rw [floor_div_int_pos t n hn]
  have e : ((n : ℤ) : ℚ) * ((⌊t⌋ / n : ℤ) : ℚ) = ((n * (⌊t⌋ / n) : ℤ) : ℚ) := by
    push_cast
    ring
  rw [e, Int.floor_sub_int]

theorem pyRound_ge_floor (q : ℚ) : ⌊q⌋ ≤ pyRound q := by
  unfold pyRound
  split
  · omega
  · split
    · omega
    · split <;> omega

theorem pyRound_nonneg {q : ℚ} (h : 0 ≤ q) : 0 ≤ pyRound q :=
  le_trans (Int.floor_nonneg.mpr h) (pyRound_ge_floor q)

theorem pyRound_abs (q : ℚ) : |((pyRound q : ℤ) : ℚ) - q| ≤ 1 / 2 := by
  have h1 : ((⌊q⌋ : ℤ) : ℚ) ≤ q := Int.floor_le q
  have h2 : q < (⌊q⌋ : ℚ) + 1 := Int.lt_floor_add_one q
  unfold pyRound
  split
  next h => rw [abs_le]; constructor <;> push_cast <;> linarith
  next h =>
    split
    next h' => rw [abs_le]; constructor <;> push_cast <;> linarith
    next h' =>
      have he : q - ((⌊q⌋ : ℤ) : ℚ) = 1 / 2 := le_antisymm (not_lt.mp h') (not_lt.mp h)
      split <;> (rw [abs_le]; constructor <;> push_cast <;> linarith)

theorem digitChar_isDigit (d : Nat) (h : d < 10) : (Char.ofNat (48 + d)).isDigit = true := by
  interval_cases d <;> decide

theorem natDecAux_digits : ∀ (fuel n : Nat), ∀ c ∈ natDecAux fuel n, c.isDigit = true := by
  intro fuel
  induction fuel with
  | zero => intro n c hc; simp [natDecAux] at hc
  | succ f ih =>
    intro n c hc
    by_cases h : n < 10
    · simp [natDecAux, h] at hc
      subst hc
      exact digitChar_isDigit n h
    · simp only [natDecAux, if_neg h, List.mem_append, List.mem_singleton] at hc
      rcases hc with hc | hc
      · exact ih (n / 10) c hc
      · subst hc
        exact digitChar_isDigit (n % 10) (by omega)

theorem natDec_digits (n : Nat) : ∀ c ∈ natDec n, c.isDigit = true :=
  natDecAux_digits (n + 1) n

theorem natDecAux_lt10 (f n : Nat) (h : n < 10) :
    natDecAux (f + 1) n = [Char.ofNat (48 + n)] := by
  simp [natDecAux, h]

theorem natDec_lt10 (n : Nat) (h : n < 10) : natDec n = [Char.ofNat (48 + n)] :=
  natDecAux_lt10 n n h

theorem natDecAux_step (f n : Nat) (h : ¬n < 10) :
    natDecAux (f + 1) n = natDecAux f (n / 10) ++ [Char.ofNat (48 + n % 10)] := by
  simp [natDecAux, h]

theorem natDec_len2 (n : Nat) (h1 : 10 ≤ n) (h2 : n < 100) : (natDec n).length = 2 := by
  obtain ⟨f, rfl⟩ : ∃ f, n = f + 1 := ⟨n - 1, by omega⟩
  unfold natDec
  rw [natDecAux_step (f + 1) (f + 1) (by omega)]
  rw [show f + 1 = f + 1 from rfl]
  obtain ⟨g, hg⟩ : ∃ g, f = g + 1 := ⟨f - 1, by omega⟩
  rw [hg, natDecAux_lt10 (g + 1) ((g + 1 + 1) / 10) (by omega)]
  rfl

theorem natDec_len3 (n : Nat) (h1 : 100 ≤ n) (h2 : n < 1000) : (natDec n).length = 3 := by
  obtain ⟨f, rfl⟩ : ∃ f, n = f + 1 := ⟨n - 1, by omega⟩
  obtain ⟨g, hg⟩ : ∃ g, f = g + 1 := ⟨f - 1, by omega⟩
  unfold natDec
  rw [natDecAux_step (f + 1) (f + 1) (by omega)]
  rw [hg]
  rw [natDecAux_step (g + 1) ((g + 1 + 1) / 10) (by omega)]
  rw [natDecAux_lt10 g ((g + 1 + 1) / 10 / 10) (by omega)]
  rfl

theorem natDec_length_pos (n : Nat) : 1 ≤ (natDec n).length := by
  by_cases h : n < 10
  · rw [natDec_lt10 n h]
    rfl
  · unfold natDec
    obtain ⟨f, rfl⟩ : ∃ f, n = f + 1 := ⟨n - 1, by omega⟩
    rw [natDecAux_step (f + 1) (f + 1) h]
    simp

theorem leftPad_length (w : Nat) (c : Char) (s : List Char) (h : s.length ≤ w) :
    (leftPad w c s).length = w := by
  simp [leftPad]
  omega

theorem leftPad_digits (w : Nat) (s : List Char) (hs : ∀ c ∈ s, c.isDigit = true) :
    ∀ c ∈ leftPad w '0' s, c.isDigit = true := by
  intro c hc
  rcases List.mem_append.mp hc with h | h
  · have := List.eq_of_mem_replicate h
    subst this
    decide
  · exact hs c h

theorem natDec_length_le2 (n : Nat) (h : n ≤ 99) : (natDec n).length ≤ 2 := by
  by_cases h1 : n < 10
  · rw [natDec_lt10 n h1]
    simp
  · rw [natDec_len2 n (by omega) (by omega)]

theorem natDec_length_le3 (n : Nat) (h : n ≤ 999) : (natDec n).length ≤ 3 := by
  by_cases h1 : n < 100
  · exact le_trans (natDec_length_le2 n (by omega)) (by omega)
  · rw [natDec_len3 n (by omega) (by omega)]

/-- The shape claimed for SRT timestamps: exactly `HH:MM:SS,mmm` with two
digits for hours, minutes and seconds and three digits for milliseconds. -/
def isHHMMSSmmm : List Char → Bool
  | [h1, h2, c1, m1, m2, c2, s1, s2, c3, d1, d2, d3] =>
    h1.isDigit && h2.isDigit && c1 = ':' && m1.isDigit && m2.isDigit && c2 = ':' &&
      s1.isDigit && s2.isDigit && c3 = ',' && d1.isDigit && d2.isDigit && d3.isDigit
  | _ => false

theorem isHHMMSSmmm_of_parts (a b c d : List Char)
    (ha : a.length = 2) (hb : b.length = 2) (hc : c.length = 2) (hd : d.length = 3)
    (da : ∀ x ∈ a, x.isDigit = true) (db : ∀ x ∈ b, x.isDigit = true)
    (dc : ∀ x ∈ c, x.isDigit = true) (dd : ∀ x ∈ d, x.isDigit = true) :
    isHHMMSSmmm (a ++ ':' :: (b ++ ':' :: (c ++ ',' :: d))) = true := by
  obtain ⟨a1, a2, rfl⟩ := List.length_eq_two.mp ha
  obtain ⟨b1, b2, rfl⟩ := List.length_eq_two.mp hb
  obtain ⟨c1, c2, rfl⟩ := List.length_eq_two.mp hc
  obtain ⟨d1, d2, d3, rfl⟩ := List.length_eq_three.mp hd
  simp only [List.cons_append, List.nil_append, isHHMMSSmmm]
  simp [da a1 (by simp), da a2 (by simp), db b1 (by simp), db b2 (by simp),
    dc c1 (by simp), dc c2 (by simp), dd d1 (by simp), dd d2 (by simp),
    dd d3 (by simp)]

theorem intPad_nonneg (w : Nat) (n : Int) (h : 0 ≤ n) :
    intPad w n = leftPad w '0' (natDec n.toNat) := by
  unfold intPad
  rw [if_neg (not_lt.mpr h)]

theorem srt_h_eq (t : ℚ) : pyTrunc (pyFloorDiv t 3600) = ⌊t⌋ / 3600 := by
  unfold pyFloorDiv
  rw [pyTrunc_intCast]
  rw [show (3600 : ℚ) = ((3600 : ℤ) : ℚ) by norm_num]
  rw [floor_div_int_pos t 3600 (by omega)]

theorem srt_m_eq (t : ℚ) :
    pyTrunc (pyFloorDiv (pyMod t 3600) 60) = ⌊t⌋ % 3600 / 60 := by
  unfold pyFloorDiv
  rw [pyTrunc_intCast]
  rw [show (60 : ℚ) = ((60 : ℤ) : ℚ) by norm_num]
  rw [floor_div_int_pos _ 60 (by omega)]
  rw [show (3600 : ℚ) = ((3600 : ℤ) : ℚ) by norm_num] 
  rw [pyMod_floor t 3600 (by omega)]
  congr 1
  omega

theorem srt_s_eq (t : ℚ) : pyTrunc (pyMod t 60) = ⌊t⌋ % 60 := by
  have hnn : 0 ≤ pyMod t 60 := pyMod_nonneg t 60 (by norm_num)
  rw [pyTrunc_eq_floor hnn]
  rw [show (60 : ℚ) = ((60 : ℤ) : ℚ) by norm_num]
  rw [pyMod_floor t 60 (by omega)]
  omega

/-- Claim C8 (amended): for every non-negative time value `t` below 100
hours whose sub-second part does not round up to a full second, the SRT
timestamp rendering of `t` has the exact form `HH:MM:SS,mmm` — two digits
each for hours, minutes and seconds and exactly three digits for
milliseconds — and represents `t` to within half a millisecond (the
integral part truncated into `HH:MM:SS`, the sub-second part rounded to
the nearest millisecond, ties to even).  The unamended claim fails both
for `t ≥ 100` hours (hour field wider than two digits) and when the
sub-second part rounds to `1000` (four-digit millisecond field), see the
counterexample. -/
theorem sec_to_srt_form (t : ℚ) (h0 : 0 ≤ t) (hlt : t < 360000)
    (hms : pyRound ((t - ((pyTrunc t : Int) : ℚ)) * 1000) ≤ 999) :
    ∃ hh mm ss ms : Nat, hh ≤ 99 ∧ mm ≤ 59 ∧ ss ≤ 59 ∧ ms ≤ 999 ∧
      sec_to_srt t =
        leftPad 2 '0' (natDec hh) ++ ':' :: (leftPad 2 '0' (natDec mm) ++ ':' ::
          (leftPad 2 '0' (natDec ss) ++ ',' :: leftPad 3 '0' (natDec ms))) ∧
      isHHMMSSmmm (sec_to_srt t) = true ∧
      |(((3600 * hh + 60 * mm + ss : Nat) : ℚ) + (ms : ℚ) / 1000) - t| ≤ 1 / 2000 := by
  have hk0 : 0 ≤ ⌊t⌋ := Int.floor_nonneg.mpr h0
  have hk1 : ⌊t⌋ < 360000 := by
    rw [Int.floor_lt]
    exact_mod_cast hlt
  have ek : pyTrunc t = ⌊t⌋ := pyTrunc_eq_floor h0
  rw [ek] at hms
  have hq0 : 0 ≤ (t - ((⌊t⌋ : ℤ) : ℚ)) * 1000 := by
    have := Int.floor_le t
    have h1 : (0 : ℚ) ≤ t - ((⌊t⌋ : ℤ) : ℚ) := by linarith
    have h2 : (0 : ℚ) ≤ (1000 : ℚ) := by norm_num
    exact mul_nonneg h1 h2
  have hr0 : 0 ≤ pyRound ((t - ((⌊t⌋ : ℤ) : ℚ)) * 1000) := pyRound_nonneg hq0
  have hstr : sec_to_srt t =
      leftPad 2 '0' (natDec (⌊t⌋ / 3600).toNat) ++ ':' ::
        (leftPad 2 '0' (natDec (⌊t⌋ % 3600 / 60).toNat) ++ ':' ::
          (leftPad 2 '0' (natDec (⌊t⌋ % 60).toNat) ++ ',' ::
            leftPad 3 '0' (natDec (pyRound ((t - ((⌊t⌋ : ℤ) : ℚ)) * 1000)).toNat))) := by
    unfold sec_to_srt
    rw [srt_h_eq, srt_m_eq, srt_s_eq, ek]
    rw [intPad_nonneg 2 _ (by omega), intPad_nonneg 2 _ (by omega),
        intPad_nonneg 2 _ (by omega), intPad_nonneg 3 _ hr0]
  refine ⟨(⌊t⌋ / 3600).toNat, (⌊t⌋ % 3600 / 60).toNat, (⌊t⌋ % 60).toNat,
    (pyRound ((t - ((⌊t⌋ : ℤ) : ℚ)) * 1000)).toNat,
    by omega, by omega, by omega, by omega, hstr, ?_, ?_⟩
  · rw [hstr]
    apply isHHMMSSmmm_of_parts
    · exact leftPad_length 2 '0' _ (natDec_length_le2 _ (by omega))
    · exact leftPad_length 2 '0' _ (natDec_length_le2 _ (by omega))
    · exact leftPad_length 2 '0' _ (natDec_length_le2 _ (by omega))
    · exact leftPad_length 3 '0' _ (natDec_length_le3 _ (by omega))
    · exact leftPad_digits 2 _ (natDec_digits _)
    · exact leftPad_digits 2 _ (natDec_digits _)
    · exact leftPad_digits 2 _ (natDec_digits _)
    · exact leftPad_digits 3 _ (natDec_digits _)
  · have hsum : ((3600 * (⌊t⌋ / 3600).toNat + 60 * (⌊t⌋ % 3600 / 60).toNat +
        (⌊t⌋ % 60).toNat : Nat) : ℤ) = ⌊t⌋ := by omega
    have hsumq : (((3600 * (⌊t⌋ / 3600).toNat + 60 * (⌊t⌋ % 3600 / 60).toNat +
        (⌊t⌋ % 60).toNat : Nat) : ℚ)) = ((⌊t⌋ : ℤ) : ℚ) := by
      exact_mod_cast congrArg (fun z : ℤ => (z : ℚ)) hsum
    have hmsq : (((pyRound ((t - ((⌊t⌋ : ℤ) : ℚ)) * 1000)).toNat : Nat) : ℚ) =
        ((pyRound ((t - ((⌊t⌋ : ℤ) : ℚ)) * 1000) : ℤ) : ℚ) := by
      exact_mod_cast congrArg (fun z : ℤ => (z : ℚ)) (Int.toNat_of_nonneg hr0)
    rw [hsumq, hmsq]
    have habs := pyRound_abs ((t - ((⌊t⌋ : ℤ) : ℚ)) * 1000)
    have e : ((⌊t⌋ : ℤ) : ℚ) +
        ((pyRound ((t - ((⌊t⌋ : ℤ) : ℚ)) * 1000) : ℤ) : ℚ) / 1000 - t =
        (((pyRound ((t - ((⌊t⌋ : ℤ) : ℚ)) * 1000) : ℤ) : ℚ) -
          (t - ((⌊t⌋ : ℤ) : ℚ)) * 1000) / 1000 := by
      ring
    rw [e, abs_div]
    rw [show |(1000 : ℚ)| = 1000 by norm_num]
    rw [div_le_iff (by norm_num : (0 : ℚ) < 1000)]
    calc |((pyRound ((t - ((⌊t⌋ : ℤ) : ℚ)) * 1000) : ℤ) : ℚ) -
          (t - ((⌊t⌋ : ℤ) : ℚ)) * 1000| ≤ 1 / 2 := habs
      _ = 1 / 2000 * 1000 := by norm_num

/-- Claim C8 as stated is false: at `t = 360000` seconds (100 hours — a
value exactly representable in binary floating point, so the rational
model agrees with the Python computation) the rendering is
`"100:00:00,000"`, whose hour field has three digits rather than two. -/
theorem sec_to_srt_form_counterexample :
    sec_to_srt 360000 = "100:00:00,000".data ∧
    isHHMMSSmmm (sec_to_srt 360000) = false :=
  ⟨by decide, by decide⟩

theorem sec_to_srt_form_witness :
    ∃ hh mm ss ms : Nat, hh ≤ 99 ∧ mm ≤ 59 ∧ ss ≤ 59 ∧ ms ≤ 999 ∧
      sec_to_srt (14901 / 4) =
        leftPad 2 '0' (natDec hh) ++ ':' :: (leftPad 2 '0' (natDec mm) ++ ':' ::
          (leftPad 2 '0' (natDec ss) ++ ',' :: leftPad 3 '0' (natDec ms))) ∧
      isHHMMSSmmm (sec_to_srt (14901 / 4)) = true ∧
      |(((3600 * hh + 60 * mm + ss : Nat) : ℚ) + (ms : ℚ) / 1000) - 14901 / 4| ≤ 1 / 2000 :=
  sec_to_srt_form (14901 / 4) (by decide) (by decide) (by decide)

theorem beginsWith_append_self : ∀ (n r : List Char), beginsWith n (n ++ r) = true := by
  intro n
  induction n with
  | nil => intro r; rfl
  | cons a as ih => intro r; simp [beginsWith, ih]

theorem beginsWith_exists : ∀ (n s : List Char), beginsWith n s = true →
    ∃ u, s = n ++ u := by
  intro n
  induction n with
  | nil => intro s _; exact ⟨s, rfl⟩
  | cons a as ih =>
    intro s h
    cases s with
    | nil => simp [beginsWith] at h
    | cons c cs =>
      simp only [beginsWith, Bool.and_eq_true, decide_eq_true_eq] at h
      obtain ⟨rfl, h2⟩ := h
      obtain ⟨u, rfl⟩ := ih cs h2
      exact ⟨u, rfl⟩

theorem declEnd_shorter : ∀ (y r : List Char), declEnd y = some r →
    r.length + 2 ≤ y.length := by
  intro y
  induction y with
  | nil => intro r h; simp [declEnd] at h
  | cons c cs ih =>
    intro r h
    simp only [declEnd] at h
    split at h
    · exact absurd h (by simp)
    · split at h
      · split at h
        next r2 heq =>
          cases h
          simp
        next =>
          have := ih r h
          simp
          omega
      · have := ih r h
        simp
        omega

theorem commentEnd_shorter : ∀ (y r : List Char), commentEnd y = some r →
    r.length + 3 ≤ y.length := by
  intro y
  induction y with
  | nil => intro r h; simp [commentEnd] at h
  | cons c cs ih =>
    intro r h
    simp only [commentEnd] at h
    split at h
    next hb =>
      cases h
      obtain ⟨u, hu⟩ := beginsWith_exists _ _ hb
      rw [hu]
      simp
    next =>
      have := ih r h
      simp
      omega

theorem dropWhile_append_space (w x : List Char)
    (hw : ∀ c ∈ w, isSpaceChar c = true) :
    (w ++ x).dropWhile isSpaceChar = x.dropWhile isSpaceChar := by
  induction w with
  | nil => rfl
  | cons a as ih =>
    simp only [List.cons_append, List.dropWhile_cons]
    rw [if_pos (hw a (by simp))]
    exact ih (fun c hc => hw c (by simp [hc]))

theorem dropWhile_cons_nospace (c : Char) (r : List Char) (h : isSpaceChar c = false) :
    (c :: r).dropWhile isSpaceChar = c :: r := by
  simp [List.dropWhile_cons, h]

theorem dropWhile_space_idem (s : List Char) :
    (s.dropWhile isSpaceChar).dropWhile isSpaceChar = s.dropWhile isSpaceChar := by
  induction s with
  | nil => rfl
  | cons a as ih =>
    by_cases h : isSpaceChar a
    · simp [List.dropWhile_cons, h, ih]
    · simp [List.dropWhile_cons, h]

theorem declEnd_append : ∀ (attrs x : List Char), (∀ c ∈ attrs, ¬c = '>') →
    declEnd (attrs ++ '?' :: '>' :: x) = some x := by
  intro attrs
  induction attrs with
  | nil =>
    intro x _
    simp [declEnd]
  | cons a as ih =>
    intro x h
    have ha : ¬a = '>' := h a (by simp)
    simp only [List.cons_append, declEnd]
    rw [if_neg ha]
    by_cases hq : a = '?'
    · rw [if_pos hq]
      cases as with
      | nil => rfl
      | cons b bs =>
        have hb : ¬b = '>' := h b (by simp)
        split
        next heq => exact absurd (List.cons.inj heq).1 hb
        next => exact ih x (fun c hc => h c (by simp [hc]))
    · rw [if_neg hq]
      exact ih x (fun c hc => h c (by simp [hc]))

theorem beginsWith_dashes_extend (ch : Char) (cs x : List Char)
    (h : beginsWith ['-', '-', '>'] (ch :: cs) = false) :
    beginsWith ['-', '-', '>'] (ch :: (cs ++ '-' :: '-' :: '>' :: x)) = false := by
  by_cases h1 : ('-' : Char) = ch
  · cases h1
    cases cs with
    | nil => rfl
    | cons c2 cs2 =>
      by_cases h2 : ('-' : Char) = c2
      · cases h2
        cases cs2 with
        | nil => rfl
        | cons c3 cs3 =>
          simp only [beginsWith, List.cons_append] at h ⊢
          simpa using h
      · simp only [beginsWith, List.cons_append]
        simp [h2]
  · simp only [beginsWith, List.cons_append]
    simp [h1]

theorem commentEnd_append : ∀ (c x : List Char),
    containsSeq ['-', '-', '>'] c = false →
    commentEnd (c ++ '-' :: '-' :: '>' :: x) = some x := by
  intro c
  induction c with
  | nil =>
    intro x _
    simp [commentEnd, beginsWith]
  | cons ch cs ih =>
    intro x h
    simp only [containsSeq, Bool.or_eq_false_iff] at h
    obtain ⟨h1, h2⟩ := h
    simp only [List.cons_append, commentEnd]
    rw [if_neg (by simpa using beginsWith_dashes_extend ch cs x h1)]
    exact ih x h2

theorem stripXmlDecl_strips (ws attrs x : List Char)
    (hws : ∀ c ∈ ws, isSpaceChar c = true) (hattrs : ∀ c ∈ attrs, ¬c = '>') :
    stripXmlDecl (ws ++ '<' :: '?' :: 'x' :: 'm' :: 'l' :: (attrs ++ '?' :: '>' :: x)) =
      x.dropWhile isSpaceChar := by
  unfold stripXmlDecl
  rw [dropWhile_append_space ws _ hws]
  rw [dropWhile_cons_nospace '<' _ (by decide)]
  have hbg : beginsWith ['<', '?', 'x', 'm', 'l']
      ('<' :: '?' :: 'x' :: 'm' :: 'l' :: (attrs ++ '?' :: '>' :: x)) = true :=
    beginsWith_append_self ['<', '?', 'x', 'm', 'l'] (attrs ++ '?' :: '>' :: x)
  rw [if_pos hbg]
  have hdrop : (('<' :: '?' :: 'x' :: 'm' :: 'l' :: (attrs ++ '?' :: '>' :: x)).drop 5) =
      attrs ++ '?' :: '>' :: x := rfl
  rw [hdrop, declEnd_append attrs x hattrs]

theorem stripComment_strips (ws c x : List Char)
    (hws : ∀ ch ∈ ws, isSpaceChar ch = true)
    (hc : containsSeq ['-', '-', '>'] c = false) :
    stripComment (ws ++ '<' :: '!' :: '-' :: '-' :: (c ++ '-' :: '-' :: '>' :: x)) =
      x.dropWhile isSpaceChar := by
  unfold stripComment
  rw [dropWhile_append_space ws _ hws]
  rw [dropWhile_cons_nospace '<' _ (by decide)]
  have hbg : beginsWith ['<', '!', '-', '-']
      ('<' :: '!' :: '-' :: '-' :: (c ++ '-' :: '-' :: '>' :: x)) = true :=
    beginsWith_append_self ['<', '!', '-', '-'] (c ++ '-' :: '-' :: '>' :: x)
  rw [if_pos hbg]
  have hdrop : (('<' :: '!' :: '-' :: '-' :: (c ++ '-' :: '-' :: '>' :: x)).drop 4) =
      c ++ '-' :: '-' :: '>' :: x := rfl
  rw [hdrop, commentEnd_append c x hc]

theorem dropWhile_length_le (p : Char → Bool) (s : List Char) :
    (s.dropWhile p).length ≤ s.length := by
  induction s with
  | nil => simp
  | cons a as ih =>
    by_cases h : p a
    · simp only [List.dropWhile_cons, if_pos h]
      simp
      omega
    · simp [List.dropWhile_cons, h]

theorem stripBOM_cons_bom (s : List Char) : stripBOM ('﻿' :: s) = s := by
  simp [stripBOM]

theorem stripBOM_of_head (s : List Char) (h : s.head? ≠ some '﻿') :
    stripBOM s = s := by
  cases s with
  | nil => rfl
  | cons c r =>
    show (if c = '﻿' then r else (c :: r)) = c :: r
    rw [if_neg (fun hc => h (by rw [hc]; rfl))]

theorem stripBOM_eq_or_lt (s : List Char) :
    stripBOM s = s ∨ (stripBOM s).length < s.length := by
  cases s with
  | nil => left; rfl
  | cons c r =>
    by_cases h : c = '﻿'
    · right
      subst h
      rw [stripBOM_cons_bom]
      simp
    · left
      show (if c = '﻿' then r else (c :: r)) = c :: r
      rw [if_neg h]

theorem stripXmlDecl_eq_or_lt (s : List Char) :
    stripXmlDecl s = s ∨ (stripXmlDecl s).length < s.length := by
  unfold stripXmlDecl
  split
  · split
    next rest hde =>
      right
      have h1 := declEnd_shorter _ _ hde
      have h2 : (s.dropWhile isSpaceChar).length ≤ s.length :=
        dropWhile_length_le _ _
      have h4 : (rest.dropWhile isSpaceChar).length ≤ rest.length :=
        dropWhile_length_le _ _
      rw [List.length_drop] at h1
      omega
    next => left; rfl
  · left; rfl

theorem stripComment_eq_or_lt (s : List Char) :
    stripComment s = s ∨ (stripComment s).length < s.length := by
  unfold stripComment
  split
  · split
    next rest hce =>
      right
      have h1 := commentEnd_shorter _ _ hce
      have h2 : (s.dropWhile isSpaceChar).length ≤ s.length :=
        dropWhile_length_le _ _
      have h4 : (rest.dropWhile isSpaceChar).length ≤ rest.length :=
        dropWhile_length_le _ _
      rw [List.length_drop] at h1
      omega
    next => left; rfl
  · left; rfl

theorem stripXmlDecl_length_le (s : List Char) :
    (stripXmlDecl s).length ≤ s.length := by
  rcases stripXmlDecl_eq_or_lt s with h | h
  · rw [h]
  · omega

theorem stripComment_length_le (s : List Char) :
    (stripComment s).length ≤ s.length := by
  rcases stripComment_eq_or_lt s with h | h
  · rw [h]
  · omega

theorem normalize_noop_parts (D : List Char) (hD : normalize_prolog D = D) :
    stripBOM D = D ∧ stripXmlDecl D = D ∧ stripComment D = D := by
  have hlen := congrArg List.length hD
  unfold normalize_prolog at hD hlen
  rcases stripBOM_eq_or_lt D with e1 | l1
  · rw [e1] at hD hlen
    rcases stripXmlDecl_eq_or_lt D with e2 | l2
    · rw [e2] at hD hlen
      rcases stripComment_eq_or_lt D with e3 | l3
      · exact ⟨e1, e2, e3⟩
      · omega
    · have := stripComment_length_le (stripXmlDecl D)
      omega
  · have m2 := stripXmlDecl_length_le (stripBOM D)
    have m3 := stripComment_length_le (stripXmlDecl (stripBOM D))
    omega

theorem stripXmlDecl_ws (ws X : List Char) (hws : ∀ c ∈ ws, isSpaceChar c = true)
    (hX : stripXmlDecl X = X) : stripXmlDecl (ws ++ X) = ws ++ X := by
  unfold stripXmlDecl
  rw [dropWhile_append_space ws X hws]
  split
  next hbg =>
    split
    next rest hde =>
      exfalso
      unfold stripXmlDecl at hX
      rw [if_pos hbg, hde] at hX
      have hX2 : List.dropWhile isSpaceChar rest = X := hX
      have h1 := declEnd_shorter _ _ hde
      have h2 : (X.dropWhile isSpaceChar).length ≤ X.length := dropWhile_length_le _ _
      have h4 : (rest.dropWhile isSpaceChar).length ≤ rest.length := dropWhile_length_le _ _
      have h5 := congrArg List.length hX2
      rw [List.length_drop] at h1
      omega
    next => rfl
  next => rfl

theorem stripComment_ws (ws X : List Char) (hws : ∀ c ∈ ws, isSpaceChar c = true)
    (hX : stripComment X = X) : stripComment (ws ++ X) = ws ++ X := by
  unfold stripComment
  rw [dropWhile_append_space ws X hws]
  split
  next hbg =>
    split
    next rest hce =>
      exfalso
      unfold stripComment at hX
      rw [if_pos hbg, hce] at hX
      have hX2 : List.dropWhile isSpaceChar rest = X := hX
      have h1 := commentEnd_shorter _ _ hce
      have h2 : (X.dropWhile isSpaceChar).length ≤ X.length := dropWhile_length_le _ _
      have h4 : (rest.dropWhile isSpaceChar).length ≤ rest.length := dropWhile_length_le _ _
      have h5 := congrArg List.length hX2
      rw [List.length_drop] at h1
      omega
    next => rfl
  next => rfl

theorem stripComment_dropWhile (X : List Char) (hX : stripComment X = X) :
    stripComment (X.dropWhile isSpaceChar) = X.dropWhile isSpaceChar := by
  unfold stripComment
  rw [dropWhile_space_idem X]
  split
  next hbg =>
    split
    next rest hce =>
      exfalso
      unfold stripComment at hX
      rw [if_pos hbg, hce] at hX
      have hX2 : List.dropWhile isSpaceChar rest = X := hX
      have h1 := commentEnd_shorter _ _ hce
      have h2 : (X.dropWhile isSpaceChar).length ≤ X.length := dropWhile_length_le _ _
      have h4 : (rest.dropWhile isSpaceChar).length ≤ rest.length := dropWhile_length_le _ _
      have h5 := congrArg List.length hX2
      rw [List.length_drop] at h1
      omega
    next => rfl
  next => rfl

theorem matchOpenTag_head {n s : List Char} {pr : List Char × List Char}
    (h : matchOpenTag n s = some pr) : ∃ u, s = '<' :: u := by
  unfold matchOpenTag at h
  split at h
  next r => exact ⟨r, rfl⟩
  next => exact absurd h (by simp)

theorem matchCloseTag_head {b : Bool} {n s : List Char} {pr : List Char × List Char}
    (h : matchCloseTag b n s = some pr) : ∃ u, s = '<' :: u := by
  unfold matchCloseTag at h
  split at h
  next r => exact ⟨r, rfl⟩
  next => exact absurd h (by simp)

theorem searchFrom_append (f : List Char → Option (List Char × List Char))
    (hf : ∀ s pr, f s = some pr → ∃ u, s = '<' :: u) :
    ∀ (P t : List Char), (∀ c ∈ P, ¬c = '<') →
    searchFrom f (P ++ t) =
      (searchFrom f t).map (fun pr => (P ++ pr.1, pr.2.1, pr.2.2)) := by
  intro P
  induction P with
  | nil =>
    intro t _
    simp only [List.nil_append]
    cases searchFrom f t with
    | none => simp
    | some pr => simp
  | cons c P' ih =>
    intro t hP
    have hc : ¬c = '<' := hP c (by simp)
    have hnone : f (c :: (P' ++ t)) = none := by
      cases hf0 : f (c :: (P' ++ t)) with
      | none => rfl
      | some pr =>
        obtain ⟨u, hu⟩ := hf _ _ hf0
        exact absurd (List.cons.inj hu).1 hc
    show (match f (c :: (P' ++ t)) with
      | some (m, rest) => some ([], m, rest)
      | none => (searchFrom f (P' ++ t)).map fun pr => (c :: pr.1, pr.2.1, pr.2.2)) =
      (searchFrom f t).map fun pr => ((c :: P') ++ pr.1, pr.2.1, pr.2.2)
    rw [hnone]
    rw [ih t (fun x hx => hP x (by simp [hx]))]
    cases searchFrom f t with
    | none => simp
    | some pr => simp

theorem extractBody_append (P t : List Char) (hP : ∀ c ∈ P, ¬c = '<') :
    extractBody (P ++ t) = extractBody t := by
  unfold extractBody
  rw [searchFrom_append (matchOpenTag speakName)
      (fun _ _ h => matchOpenTag_head h) P t hP]
  rw [searchFrom_append (matchCloseTag false speakName)
      (fun _ _ h => matchCloseTag_head h) P t hP]
  cases h1 : searchFrom (matchOpenTag speakName) t with
  | none => rfl
  | some pr1 =>
    obtain ⟨p1, m1, r1⟩ := pr1
    cases h2 : searchFrom (matchCloseTag false speakName) t with
    | none => rfl
    | some pr2 =>
      obtain ⟨p2, m2, r2⟩ := pr2
      simp only [Option.map_some']
      have e1 : (P ++ p1).length + m1.length = P.length + (p1.length + m1.length) := by
        rw [List.length_append]
        omega
      have e2 : (P ++ p2).length - (P.length + (p1.length + m1.length)) =
          p2.length - (p1.length + m1.length) := by
        rw [List.length_append]
        omega
      rw [e1, e2, List.drop_append]

theorem space_ne_lt {c : Char} (h : isSpaceChar c = true) : ¬c = '<' := by
  intro hc
  subst hc
  simp [isSpaceChar] at h

theorem extractBody_dropWhile (X : List Char) :
    extractBody (X.dropWhile isSpaceChar) = extractBody X := by
  conv_rhs => rw [← List.takeWhile_append_dropWhile isSpaceChar X]
  rw [extractBody_append (X.takeWhile isSpaceChar) _
    (fun c hc => space_ne_lt (List.mem_takeWhile_imp hc))]

theorem split_eq_of_extract_eq {s1 s2 : List Char} (M : Int)
    (h : extract_speak_body s1 = extract_speak_body s2) :
    split_ssml_by_voice s1 M = split_ssml_by_voice s2 M := by
  unfold split_ssml_by_voice
  rw [h]

theorem stripXmlDecl_lt_bang (r : List Char) :
    stripXmlDecl ('<' :: '!' :: r) = '<' :: '!' :: r := by
  have hb : beginsWith ['<', '?', 'x', 'm', 'l'] ('<' :: '!' :: r) = false := rfl
  unfold stripXmlDecl
  rw [dropWhile_cons_nospace '<' _ (by decide)]
  rw [if_neg (by rw [hb]; simp)]

theorem extract_norm_tail (dp cp ws1 ws2 ws3 attrs cb D : List Char)
    (hws1 : ∀ c ∈ ws1, isSpaceChar c = true)
    (hws2 : ∀ c ∈ ws2, isSpaceChar c = true)
    (hws3 : ∀ c ∈ ws3, isSpaceChar c = true)
    (hattrs : ∀ c ∈ attrs, ¬c = '>')
    (hcb : containsSeq ['-', '-', '>'] cb = false)
    (hX : stripXmlDecl D = D) (hC : stripComment D = D)
    (hdp : dp = [] ∨ dp = ws1 ++ '<' :: '?' :: 'x' :: 'm' :: 'l' :: (attrs ++ ['?', '>']))
    (hcp : cp = [] ∨ cp = ws2 ++ '<' :: '!' :: '-' :: '-' :: (cb ++ ['-', '-', '>'])) :
    extractBody (stripComment (stripXmlDecl (dp ++ (cp ++ (ws3 ++ D))))) =
      extractBody D := by
  rcases hdp with rfl | rfl
  · simp only [List.nil_append]
    rcases hcp with rfl | rfl
    · simp only [List.nil_append]
      rw [stripXmlDecl_ws ws3 D hws3 hX, stripComment_ws ws3 D hws3 hC]
      exact extractBody_append ws3 D (fun c hc => space_ne_lt (hws3 c hc))
    · have e1 : (ws2 ++ '<' :: '!' :: '-' :: '-' :: (cb ++ ['-', '-', '>'])) ++
          (ws3 ++ D) =
          ws2 ++ ('<' :: '!' :: '-' :: '-' :: (cb ++ '-' :: '-' :: '>' :: (ws3 ++ D))) := by
        simp
      rw [e1]
      rw [stripXmlDecl_ws ws2 _ hws2 (stripXmlDecl_lt_bang _)]
      rw [stripComment_strips ws2 cb (ws3 ++ D) hws2 hcb]
      rw [dropWhile_append_space ws3 D hws3]
      exact extractBody_dropWhile D
  · have e1 : (ws1 ++ '<' :: '?' :: 'x' :: 'm' :: 'l' :: (attrs ++ ['?', '>'])) ++
        (cp ++ (ws3 ++ D)) =
        ws1 ++ '<' :: '?' :: 'x' :: 'm' :: 'l' ::
          (attrs ++ '?' :: '>' :: (cp ++ (ws3 ++ D))) := by
      simp
    rw [e1]
    rw [stripXmlDecl_strips ws1 attrs _ hws1 hattrs]
    rcases hcp with rfl | rfl
    · simp only [List.nil_append]
      rw [dropWhile_append_space ws3 D hws3]
      rw [stripComment_dropWhile D hC]
      exact extractBody_dropWhile D
    · have e2 : ((ws2 ++ '<' :: '!' :: '-' :: '-' :: (cb ++ ['-', '-', '>'])) ++
          (ws3 ++ D)) =
          ws2 ++ ('<' :: '!' :: '-' :: '-' :: (cb ++ '-' :: '-' :: '>' :: (ws3 ++ D))) := by
        simp
      rw [e2, dropWhile_append_space ws2 _ hws2]
      rw [dropWhile_cons_nospace '<' _ (by decide)]
      have e3 : ('<' :: '!' :: '-' :: '-' :: (cb ++ '-' :: '-' :: '>' :: (ws3 ++ D))) =
          [] ++ '<' :: '!' :: '-' :: '-' :: (cb ++ '-' :: '-' :: '>' :: (ws3 ++ D)) := rfl
      rw [e3, stripComment_strips [] cb (ws3 ++ D) (by simp) hcb]
      rw [dropWhile_append_space ws3 D hws3]
      exact extractBody_dropWhile D

theorem head_ne_bom_space_append (ws r : List Char)
    (hws : ∀ c ∈ ws, isSpaceChar c = true) (hr : r.head? ≠ some '﻿') :
    (ws ++ r).head? ≠ some '﻿' := by
  cases ws with
  | nil => simpa using hr
  | cons w ws' =>
    intro hcontra
    have hw := hws w (by simp)
    have he : w = '﻿' := by simpa using hcontra
    subst he
    exact absurd hw (by decide)

theorem head_ne_bom_of_stripBOM (D : List Char) (hB : stripBOM D = D) :
    D.head? ≠ some '﻿' := by
  cases D with
  | nil => simp
  | cons c r =>
    intro h
    have hc : c = '﻿' := by simpa using h
    subst hc
    rw [stripBOM_cons_bom] at hB
    have := congrArg List.length hB
    simp at this

/-- Claim C6: (1) splitting a variant of a document `D` that adds a leading
byte-order mark, a leading XML declaration (`<?xml` + `>`-free attribute
text + `?>`) and/or a leading comment block (`<!--` + content without
`-->` + `-->`), each with optional leading whitespace, produces exactly the
same chunk sequence as splitting `D` itself, provided `D` carries none of
them (its prolog normalization is the identity); (2) a document in which
the root `<speak>` open-tag search or the `</speak>` close-tag search fails
raises the malformed-document `ValueError`. -/
theorem prolog_invariance_and_malformed :
    (∀ (bomPart dp cp ws1 ws2 ws3 attrs cb D : List Char) (M : Int),
      (∀ c ∈ ws1, isSpaceChar c = true) → (∀ c ∈ ws2, isSpaceChar c = true) →
      (∀ c ∈ ws3, isSpaceChar c = true) → (∀ c ∈ attrs, ¬c = '>') →
      containsSeq ['-', '-', '>'] cb = false →
      normalize_prolog D = D →
      (bomPart = [] ∨ bomPart = ['﻿']) →
      (dp = [] ∨ dp = ws1 ++ '<' :: '?' :: 'x' :: 'm' :: 'l' :: (attrs ++ ['?', '>'])) →
      (cp = [] ∨ cp = ws2 ++ '<' :: '!' :: '-' :: '-' :: (cb ++ ['-', '-', '>'])) →
      split_ssml_by_voice (bomPart ++ (dp ++ (cp ++ (ws3 ++ D)))) M =
        split_ssml_by_voice D M) ∧
    (∀ (s : List Char) (M : Int),
      searchFrom (matchOpenTag speakName) (normalize_prolog s) = none ∨
        searchFrom (matchCloseTag false speakName) (normalize_prolog s) = none →
      split_ssml_by_voice s M = .error malformedMsg) := by
  constructor
  · intro bomPart dp cp ws1 ws2 ws3 attrs cb D M hws1 hws2 hws3 hattrs hcb hD hbp hdp hcp
    obtain ⟨hB, hX, hC⟩ := normalize_noop_parts D hD
    apply split_eq_of_extract_eq
    unfold extract_speak_body
    have hDside : extractBody (normalize_prolog D) = extractBody D := by rw [hD]
    rw [hDside]
    have htail := extract_norm_tail dp cp ws1 ws2 ws3 attrs cb D hws1 hws2 hws3
      hattrs hcb hX hC hdp hcp
    have htail_head : (dp ++ (cp ++ (ws3 ++ D))).head? ≠ some '﻿' := by
      rcases hdp with rfl | rfl
      · simp only [List.nil_append]
        rcases hcp with rfl | rfl
        · simp only [List.nil_append]
          exact head_ne_bom_space_append ws3 D hws3 (head_ne_bom_of_stripBOM D hB)
        · have e : (ws2 ++ '<' :: '!' :: '-' :: '-' :: (cb ++ ['-', '-', '>'])) ++
              (ws3 ++ D) =
              ws2 ++ ('<' :: '!' :: '-' :: '-' ::
                (cb ++ '-' :: '-' :: '>' :: (ws3 ++ D))) := by simp
          rw [e]
          apply head_ne_bom_space_append ws2 _ hws2
          intro hcon
          exact absurd (Option.some.inj hcon) (by decide)
      · have e : (ws1 ++ '<' :: '?' :: 'x' :: 'm' :: 'l' :: (attrs ++ ['?', '>'])) ++
            (cp ++ (ws3 ++ D)) =
            ws1 ++ ('<' :: '?' :: 'x' :: 'm' :: 'l' ::
              (attrs ++ '?' :: '>' :: (cp ++ (ws3 ++ D)))) := by simp
        rw [e]
        apply head_ne_bom_space_append ws1 _ hws1
        intro hcon
        exact absurd (Option.some.inj hcon) (by decide)
    unfold normalize_prolog
    rcases hbp with rfl | rfl
    · simp only [List.nil_append]
      rw [stripBOM_of_head _ htail_head]
      exact htail
    · have e : (['﻿'] ++ (dp ++ (cp ++ (ws3 ++ D)))) =
          '﻿' :: (dp ++ (cp ++ (ws3 ++ D))) := rfl
      rw [e, stripBOM_cons_bom]
      exact htail
  · intro s M h
    unfold split_ssml_by_voice extract_speak_body extractBody
    rcases h with h | h
    · rw [h]
    · cases ho : searchFrom (matchOpenTag speakName) (normalize_prolog s) with
      | none => rfl
      | some pr =>
        obtain ⟨p1, m1, r1⟩ := pr
        rw [h]

theorem prolog_invariance_and_malformed_witness :
    split_ssml_by_voice
        (['﻿'] ++ (([] ++ '<' :: '?' :: 'x' :: 'm' :: 'l' ::
            (" version=1.0".data ++ ['?', '>'])) ++
          (([' '] ++ '<' :: '!' :: '-' :: '-' :: (" c ".data ++ ['-', '-', '>'])) ++
            (['\n'] ++ "<speak><voice a>x</voice></speak>".data)))) 48 =
      split_ssml_by_voice "<speak><voice a>x</voice></speak>".data 48 ∧
    split_ssml_by_voice "<speak>no close".data 48 = .error malformedMsg :=
  ⟨prolog_invariance_and_malformed.1 ['﻿'] _ _ [] [' '] ['\n'] " version=1.0".data
      " c ".data "<speak><voice a>x</voice></speak>".data 48
      (by decide) (by decide) (by decide) (by decide) (by decide) (by rfl)
      (Or.inr rfl) (Or.inr rfl) (Or.inr rfl),
   prolog_invariance_and_malformed.2 "<speak>no close".data 48 (Or.inr (by rfl))⟩
